import Mathlib

/-!
Verification of the HTTP cache filter core (range parsing, Cache-Control
parsing, HTTP-date parsing, and the reference cache backend) against its
natural-language specification.

Shallow embedding conventions:
* C++ `absl::string_view` values become `List Char`; consuming prefix
  operations return the remaining suffix.
* `uint64_t` values become `Nat` with overflow made explicit against
  `U64 = 2^64`.
* `ASSERT`/`RELEASE_ASSERT` contract violations are modelled as terminal
  errors (`Option`-valued steps returning `none`), following the source's
  own error taxonomy ("programmer-contract violation -> assertion failure;
  not recoverable").
-/

/-! ### Basic character classes and numeric helpers -/

/-- One above the largest `uint64_t` value. -/
def U64 : Nat := 2 ^ 64

/-- The `UINT64_MAX` sentinel used by the range parser for suffix ranges. -/
def UMAX : Nat := U64 - 1

/-- Numeric value of a run of ASCII digits (most significant first), as the
C++ accumulation loop `val = val * 10 + (c - '0')` computes it (without the
modular truncation, so overflow is visible as `>= U64`). -/
def digitsVal (ds : List Char) : Nat :=
  ds.foldl (fun a c => a * 10 + (c.toNat - 48)) 0

/-- ASCII whitespace per `absl::ascii_isspace`: space, tab, LF, VT, FF, CR. -/
def isAsciiWs (c : Char) : Bool :=
  c = ' ' || c = Char.ofNat 9 || c = Char.ofNat 10 || c = Char.ofNat 11 ||
  c = Char.ofNat 12 || c = Char.ofNat 13

/-- The `tchar` predicate from `http_cache_utils.cc`. Note the source's
switch statement omits the apostrophe that the RFC grammar (quoted in its
own comment) includes; we mirror the code. `Char.ofNat 96` is the backquote. -/
def isTchar (c : Char) : Bool :=
  c = '!' || c = '#' || c = '$' || c = '%' || c = '&' || c = '*' || c = '+' ||
  c = '-' || c = '.' || c = '^' || c = '_' || c = Char.ofNat 96 || c = '|' ||
  c = '~' || c.isAlphanum

/-- Model of `absl::ConsumePrefix`: if `p` is an initial segment of `s`,
return the remainder, else `none` (in which case the C++ view is unmodified). -/
def consumeLit : List Char → List Char → Option (List Char)
  | [], s => some s
  | _ :: _, [] => none
  | p :: ps, c :: cs => if p = c then consumeLit ps cs else none

/-- Modelled from the spec: `StringUtil::readAndRemoveLeadingDigits` is
declared in `common/common/utility.h`, which is not part of the provided
sources. Per spec section 4.1 ("A leading digit run is read as an unsigned
64-bit integer") and the in-source comment in `eatLeadingDuration`
("uint64_t overflow detected (ie. string contains digits but they were not
consumed)"): the maximal leading digit run is read; if it is empty or its
value overflows `uint64_t`, the function fails and consumes nothing;
otherwise it returns the value and the input past the digit run. -/
def readAndRemoveLeadingDigits (s : List Char) : Option Nat × List Char :=
  let d := s.takeWhile Char.isDigit
  if d.isEmpty then (none, s)
  else if digitsVal d < U64 then (some (digitsVal d), s.dropWhile Char.isDigit)
  else (none, s)

/-! ### Range parsing (`CacheHeaderUtility::getRanges`,
`cache_header_utility.cc` lines 105-163; identical text in
`src/unnamed/part_006`) -/

/-- Byte range from an HTTP request (`RawByteRange` in
`cache_header_utility.h`). `first = UMAX` marks a suffix range. -/
structure RawByteRange where
  first : Nat
  last : Nat
deriving DecidableEq, Repr

/-- The invariant enforced by the `RELEASE_ASSERT` in the `RawByteRange`
constructor: `isSuffix() || first <= last`. -/
def rbInv (r : RawByteRange) : Prop := r.first = UMAX ∨ r.first ≤ r.last

instance (r : RawByteRange) : Decidable (rbInv r) := by
  unfold rbInv; infer_instance

/-- The character list `bytes=`. -/
def bytesEqL : List Char := ['b', 'y', 't', 'e', 's', '=']

/-- The parsing loop of `getRanges` (`cache_header_utility.cc:134-160`).
Each iteration reads `digits? "-" digits?`, applies the suffix
reinterpretation when the second number is absent, rejects out-of-order
pairs and stray characters (clearing all accumulated ranges), and requires
a comma between specs. `fuel` bounds the recursion; the wrapper passes
`length + 1`, which suffices because every iteration consumes at least the
`-` byte. -/
def parseRangesLoop : Nat → List Char → List RawByteRange → List RawByteRange
  | 0, _, acc => acc
  | fuel + 1, s, acc =>
    if s.isEmpty then acc
    else
      let p1 := readAndRemoveLeadingDigits s
      let first0 := p1.1.getD UMAX
      match consumeLit ['-'] p1.2 with
      | none => []
      | some s2 =>
        let p2 := readAndRemoveLeadingDigits s2
        let fl : Nat × Nat :=
          match p2.1 with
          | none => (UMAX, first0)
          | some l => (first0, l)
        if fl.1 ≠ UMAX ∧ fl.2 < fl.1 then []
        else if p2.2.isEmpty then acc ++ [⟨fl.1, fl.2⟩]
        else
          match consumeLit [','] p2.2 with
          | none => []
          | some s4 => parseRangesLoop fuel s4 (acc ++ [⟨fl.1, fl.2⟩])

/-- `CacheHeaderUtility::getRanges` over the list of `Range` header values
of a GET request (the function asserts the method is GET, so the method is
a precondition rather than an argument). Exactly one header value is
required; values longer than 100 bytes and values not starting with
`bytes=` are rejected. -/
def getRanges (headerVals : List (List Char)) : List RawByteRange :=
  match headerVals with
  | [v] =>
    if v.length > 100 then []
    else
      match consumeLit bytesEqL v with
      | some rest => parseRangesLoop (rest.length + 1) rest []
      | none => []
  | _ => []

/-- The parsing loop of the other `getRanges` revision
(`src/unnamed/part_007`, lines 49-86). Its grammar differs: a leading `-`
sets `first` to `UINT64_MAX` immediately; after the first number, a `-`
must follow, and at that point the revision explicitly checks
`if (first == UINT64_MAX) { ranges.clear(); break; }` — the sentinel rule.
Without a `-`, digits are re-read into `first`. A failed `last` read at
end of input triggers the suffix reinterpretation; the comma check runs
after the push and clears on failure. `StringUtil::consumeLeadingDigits`
is modelled by `readAndRemoveLeadingDigits` (same contract: maximal digit
run, failure consumes nothing); the facts proved about this revision reach
the sentinel check before any overflow can occur, so they do not depend on
the overflow modelling. -/
def parseRangesLoopP7 : Nat → List Char → List RawByteRange → List RawByteRange
  | 0, _, acc => acc
  | fuel + 1, s, acc =>
    if s.isEmpty then acc
    else
      let st1 : Option (Nat × List Char) :=
        match consumeLit ['-'] s with
        | some s1 => some (UMAX, s1)
        | none =>
          match readAndRemoveLeadingDigits s with
          | (some f, s1) => some (f, s1)
          | (none, _) => none
      match st1 with
      | none => []
      | some (f1, s1) =>
        let st2 : Option (Nat × List Char) :=
          match consumeLit ['-'] s1 with
          | some s2 => if f1 = UMAX then none else some (f1, s2)
          | none =>
            match readAndRemoveLeadingDigits s1 with
            | (some f, s2) => some (f, s2)
            | (none, _) => none
        match st2 with
        | none => []
        | some (f2, s2) =>
          match readAndRemoveLeadingDigits s2 with
          | (none, _) =>
            if s2.isEmpty then acc ++ [⟨UMAX, f2⟩] else []
          | (some l, s3) =>
            match consumeLit [','] s3 with
            | some s4 => parseRangesLoopP7 fuel s4 (acc ++ [⟨f2, l⟩])
            | none => if s3.isEmpty then acc ++ [⟨f2, l⟩] else []

/-- The `src/unnamed/part_007` revision of `CacheHeaderUtility::getRanges`:
same header selection, 100-byte cap and `bytes` `=` prefix, then the
revision's own parsing loop. -/
def getRangesP7 (headerVals : List (List Char)) : List RawByteRange :=
  match headerVals with
  | [v] =>
    if v.length > 100 then []
    else
      match consumeLit bytesEqL v with
      | some rest => parseRangesLoopP7 (rest.length + 1) rest []
      | none => []
  | _ => []


/-! ### Cache-Control parsing (`http_cache_utils.cc`, appended in
`simple_http_cache.h` lines 46-259) -/

/-- Value space of `SystemTime::duration` as the parser produces it: a
(signed) number of seconds, or the saturated `duration::max()`. The code
only ever constructs `seconds(n)` with `0 <= n < 2^63`, `zero()` (which is
`secs 0`), and `max()`, so this algebra is faithful for equality. -/
inductive Duration where
  | secs (n : Int) : Duration
  | max : Duration
deriving DecidableEq, Repr

/-- `SystemTime::duration::zero()`. -/
def Duration.zero : Duration := .secs 0

/-- `eatToken` from `http_cache_utils.cc`: whether a nonempty initial run
of tchars exists, and the input past that run. -/
def eatToken (s : List Char) : Bool × List Char :=
  (!(s.takeWhile isTchar).isEmpty, s.dropWhile isTchar)

/-- `eatDirectiveArgument` from `http_cache_utils.cc`. For a quoted
argument the code removes up to but not including the closing quote
(`s.remove_prefix(closing_quote)` with `closing_quote = s.find('"', 1)`),
so the closing quote is retained. When no closing quote exists the source
calls `remove_prefix(npos)` — undefined behavior in C++; we model that
corner as consuming the whole view (`dropWhile` of everything). -/
def eatDirectiveArgument (s : List Char) : List Char :=
  match s with
  | [] => []
  | c :: rest =>
    if c = '\"' then rest.dropWhile (fun x => !(x = '\"' : Bool))
    else (eatToken s).2

/-- `eatLeadingDuration` from `http_cache_utils.cc`. Reads a leading digit
run; a value that is negative as `int64_t` (that is, `>= 2^63`) saturates
to `max`. If unconsumed digits remain (uint64 overflow), the result is
`max` when the digit run extends to a comma or the end of the input, and
`zero` otherwise; any other unconsumed non-comma byte invalidates the
value. Returns the duration and the remaining input. -/
def eatLeadingDuration (s : List Char) : Duration × List Char :=
  let p := readAndRemoveLeadingDigits s
  let d0 : Duration :=
    match p.1 with
    | none => .zero
    | some n => if 2 ^ 63 ≤ n then .max else .secs (Int.ofNat n)
  let d : Duration :=
    match p.2 with
    | [] => d0
    | c :: _ =>
      if c.isDigit then
        match p.2.dropWhile Char.isDigit with
        | [] => .max
        | c2 :: _ => if c2 = ',' then .max else .zero
      else if c ≠ ',' then .zero
      else d0
  (d, p.2)

/-- `StripLeadingAsciiWhitespace`. -/
def stripWs (s : List Char) : List Char := s.dropWhile isAsciiWs

/-- The trailing `ConsumePrefix(&cache_control, ",")` at the bottom of the
`effectiveMaxAge` loop: drop one leading comma if present. -/
def commaSkip (s : List Char) : List Char :=
  match consumeLit [','] s with
  | some r => r
  | none => s

/-- The literal `no-cache`. -/
def ncL : List Char := ['n', 'o', '-', 'c', 'a', 'c', 'h', 'e']

/-- The directive name `s-maxage` (without the `=`). -/
def smTok : List Char := ['s', '-', 'm', 'a', 'x', 'a', 'g', 'e']

/-- The directive name `max-age` (without the `=`). -/
def maTok : List Char := ['m', 'a', 'x', '-', 'a', 'g', 'e']

/-- The literal `s-maxage=`. -/
def smL : List Char := smTok ++ ['=']

/-- The literal `max-age=`. -/
def maL : List Char := maTok ++ ['=']

/-- The while loop of `effectiveMaxAge` (`http_cache_utils.cc`). Each
iteration eats one cache-directive: a `no-cache` token returns zero; an
`s-maxage=` directive sets the lifetime, sets the sticky flag and rejects
trailing junk; a `max-age=` directive sets the lifetime unless the sticky
flag is set; any other token (with optional argument) is skipped; a
directive starting with an illegal byte returns zero. `fuel` bounds the
recursion; every continuing iteration consumes at least one byte, so the
wrapper's `length + 1` suffices. -/
def emaLoop : Nat → List Char → Duration → Bool → Duration
  | 0, _, ma, _ => ma
  | fuel + 1, s, ma, fs =>
    if s.isEmpty then ma
    else
      match consumeLit ncL s with
      | some s1 =>
        let t := eatToken s1
        if t.1 then
          let s3 :=
            match consumeLit ['='] t.2 with
            | some s2 => eatDirectiveArgument s2
            | none => t.2
          emaLoop fuel (stripWs (commaSkip s3)) ma fs
        else Duration.zero
      | none =>
        match consumeLit smL s with
        | some s1 =>
          let p := eatLeadingDuration s1
          let s2 := stripWs p.2
          if s2.isEmpty || s2.head? = some ',' then
            emaLoop fuel (stripWs (commaSkip s2)) p.1 true
          else Duration.zero
        | none =>
          match (if fs then none else consumeLit maL s) with
          | some s1 =>
            let p := eatLeadingDuration s1
            emaLoop fuel (stripWs (commaSkip p.2)) p.1 fs
          | none =>
            let t := eatToken s
            if t.1 then
              let s3 :=
                match consumeLit ['='] t.2 with
                | some s2 => eatDirectiveArgument s2
                | none => t.2
              emaLoop fuel (stripWs (commaSkip s3)) ma fs
            else Duration.zero

/-- `Internal::effectiveMaxAge` from `http_cache_utils.cc`. -/
def effectiveMaxAge (s : List Char) : Duration :=
  emaLoop (s.length + 1) s .zero false


/-! ### Directive-level view of Cache-Control values

The spec's grammar is `Cache-Control = 1#cache-directive`,
`cache-directive = token [ "=" ( token / quoted-string ) ]`. We reify a
cache-directive as an abstract `Dir`, render a list of directives to a
comma-separated header value, and give the per-directive semantics
(`dirStep`) of one pass of the `effectiveMaxAge` loop. The correspondence
theorem below proves `effectiveMaxAge` of a rendered directive list equals
the directive-list semantics, which claims C5 and C6 then quantify over. -/

/-- Argument of a cache-directive: a token or a quoted-string (with the
quote-free interior). -/
inductive DirArg where
  | tok (a : List Char) : DirArg
  | quoted (inner : List Char) : DirArg
deriving DecidableEq, Repr

/-- A cache-directive: a token, optionally with an argument. -/
structure Dir where
  tok : List Char
  arg : Option DirArg
deriving DecidableEq, Repr

/-- Rendering of an optional directive argument. -/
def renderArg : Option DirArg → List Char
  | none => []
  | some (.tok a) => '=' :: a
  | some (.quoted i) => '=' :: '\"' :: (i ++ ['\"'])

/-- Rendering of a cache-directive to header-value text. -/
def render (d : Dir) : List Char := d.tok ++ renderArg d.arg

/-- Well-formedness of a directive argument: a token is a nonempty run of
tchars; a quoted-string interior contains no quote. -/
def wfArg : Option DirArg → Bool
  | none => true
  | some (.tok a) => !a.isEmpty && a.all isTchar
  | some (.quoted i) => i.all (fun c => !(c = '\"' : Bool))

/-- Well-formedness of a cache-directive per the RFC 7234 grammar (with
the code's `tchar` set). -/
def wfDir (d : Dir) : Bool :=
  !d.tok.isEmpty && d.tok.all isTchar && wfArg d.arg

/-- Comma-joined rendering of a directive list. -/
def joinDirs : List Dir → List Char
  | [] => []
  | [d] => render d
  | d :: ds => render d ++ ',' :: joinDirs ds

/-- Effect of scanning one well-formed cache-directive in the
`effectiveMaxAge` loop, starting from lifetime `ma` and sticky flag `fs`:
`none` means the function returns zero at (or just after) this directive;
`some (ma', fs')` means the scan continues past it with the new state.
Derived case by case from the loop in `http_cache_utils.cc`; the
correspondence is proved, not assumed. -/
def dirStep (d : Dir) (ma : Duration) (fs : Bool) : Option (Duration × Bool) :=
  match d.arg with
  | some (.quoted _) => none
  | _ =>
    match consumeLit ncL d.tok with
    | some rest => if rest.isEmpty then none else some (ma, fs)
    | none =>
      if d.tok = smTok ∧ d.arg.isSome then
        match d.arg with
        | some (.tok a) =>
          if a.all Char.isDigit ∧ digitsVal a < U64 then
            some (if 2 ^ 63 ≤ digitsVal a then .max else .secs (Int.ofNat (digitsVal a)), true)
          else none
        | _ => none
      else if d.tok = maTok ∧ d.arg.isSome ∧ fs = false then
        match d.arg with
        | some (.tok a) =>
          if a.all Char.isDigit then
            if digitsVal a < U64 then
              some (if 2 ^ 63 ≤ digitsVal a then .max else .secs (Int.ofNat (digitsVal a)), fs)
            else some (.max, fs)
          else
            if digitsVal (a.takeWhile Char.isDigit) < U64 then
              match consumeLit ncL (a.dropWhile Char.isDigit) with
              | some rest2 => if rest2.isEmpty then none else some (.zero, fs)
              | none => some (.zero, fs)
            else some (.zero, fs)
        | _ => none
      else some (ma, fs)

/-- Directive-list semantics of `effectiveMaxAge`. -/
def runDirs : List Dir → Duration → Bool → Duration
  | [], ma, _ => ma
  | d :: ds, ma, fs =>
    match dirStep d ma fs with
    | none => Duration.zero
    | some (ma', fs') => runDirs ds ma' fs'


/-! ### HTTP-date parsing (`Internal::httpTime`, `http_cache_utils.cc`)

`httpTime` tries three `absl::ParseTime` format strings in order:
`"%a, %d %b %Y %H:%M:%S GMT"`, `"%A, %d-%b-%y %H:%M:%S GMT"`,
`"%a %b %e %H:%M:%S %Y"`. `absl::ParseTime` itself is external library
code (Abseil/cctz) not in the sources, so the per-format parsers below are
modelled from the spec ("the three RFC 7231 formats"; a format must parse
the entire string): `%a`/`%A` accept a full or abbreviated weekday name,
`%b` a full or abbreviated month name, `%d`/`%H`/`%M`/`%S`/`%y` two
digits, `%Y` four digits, and `%e` a space- or digit-padded day. `%y`
maps 69-99 to 19xx and 00-68 to 20xx. A default-constructed `SystemTime`
(the null sentinel) is the epoch, so times are seconds since the epoch
with sentinel `0`. -/

/-- Shorthand for the character list of a string literal. -/
def strL (s : String) : List Char := s.data

/-- Parse exactly two ASCII digits. -/
def parse2D (s : List Char) : Option (Nat × List Char) :=
  match s with
  | a :: b :: r =>
    if a.isDigit ∧ b.isDigit then some ((a.toNat - 48) * 10 + (b.toNat - 48), r)
    else none
  | _ => none

/-- Parse exactly four ASCII digits. -/
def parse4D (s : List Char) : Option (Nat × List Char) :=
  match s with
  | a :: b :: c :: d :: r =>
    if a.isDigit ∧ b.isDigit ∧ c.isDigit ∧ d.isDigit then
      some (digitsVal [a, b, c, d], r)
    else none
  | _ => none

/-- Try a list of literal names as prefixes, returning the remainder after
the first that matches. -/
def parseOneOf (names : List (List Char)) (s : List Char) : Option (List Char) :=
  match names with
  | [] => none
  | n :: ns =>
    match consumeLit n s with
    | some r => some r
    | none => parseOneOf ns s

/-- Weekday names: full names first (so `Sunday` is not read as `Sun`),
then the abbreviations. -/
def weekdayNames : List (List Char) :=
  [strL "Sunday", strL "Monday", strL "Tuesday", strL "Wednesday",
   strL "Thursday", strL "Friday", strL "Saturday",
   strL "Sun", strL "Mon", strL "Tue", strL "Wed", strL "Thu", strL "Fri",
   strL "Sat"]

/-- Month-name table mapping to month numbers, full names first. -/
def monthTable : List (List Char × Nat) :=
  [(strL "January", 1), (strL "February", 2), (strL "March", 3),
   (strL "April", 4), (strL "August", 8), (strL "September", 9),
   (strL "October", 10), (strL "November", 11), (strL "December", 12),
   (strL "June", 6), (strL "July", 7),
   (strL "Jan", 1), (strL "Feb", 2), (strL "Mar", 3), (strL "Apr", 4),
   (strL "May", 5), (strL "Jun", 6), (strL "Jul", 7), (strL "Aug", 8),
   (strL "Sep", 9), (strL "Oct", 10), (strL "Nov", 11), (strL "Dec", 12)]

/-- Parse a month name from the table. -/
def parseMonth : List Char → Option (Nat × List Char)
  | s =>
    (monthTable.foldl
      (fun acc p =>
        match acc with
        | some _ => acc
        | none =>
          match consumeLit p.1 s with
          | some r => some (p.2, r)
          | none => none)
      none)

/-- Parse `HH:MM:SS`. -/
def parseHMS (s : List Char) : Option ((Nat × Nat × Nat) × List Char) := do
  let (h, r1) ← parse2D s
  let r2 ← consumeLit [':'] r1
  let (mi, r3) ← parse2D r2
  let r4 ← consumeLit [':'] r3
  let (se, r5) ← parse2D r4
  some ((h, mi, se), r5)

/-- Days from the civil epoch 1970-01-01 (Howard Hinnant's algorithm,
restricted to years >= 1, which keeps all intermediate values in `Nat`). -/
def daysFromCivil (y m d : Nat) : Int :=
  let y' := if m ≤ 2 then y - 1 else y
  let era := y' / 400
  let yoe := y' - era * 400
  let mp := if m > 2 then m - 3 else m + 9
  let doy := (153 * mp + 2) / 5 + d - 1
  let doe := yoe * 365 + yoe / 4 - yoe / 100 + doy
  (Int.ofNat (era * 146097 + doe)) - 719468

/-- Seconds since the Unix epoch of a civil UTC datetime. -/
def epochOf (y mo d h mi se : Nat) : Int :=
  daysFromCivil y mo d * 86400 + (h * 3600 + mi * 60 + se)

/-- IMF-fixdate: `Sun, 06 Nov 1994 08:49:37 GMT`. -/
def parseIMF (s : List Char) : Option Int := do
  let r1 ← parseOneOf weekdayNames s
  let r2 ← consumeLit (strL ", ") r1
  let (d, r3) ← parse2D r2
  let r4 ← consumeLit [' '] r3
  let (mo, r5) ← parseMonth r4
  let r6 ← consumeLit [' '] r5
  let (y, r7) ← parse4D r6
  let r8 ← consumeLit [' '] r7
  let ((h, mi, se), r9) ← parseHMS r8
  let r10 ← consumeLit (strL " GMT") r9
  if r10.isEmpty then some (epochOf y mo d h mi se) else none

/-- Obsolete RFC 850 format: `Sunday, 06-Nov-94 08:49:37 GMT`. -/
def parseRfc850 (s : List Char) : Option Int := do
  let r1 ← parseOneOf weekdayNames s
  let r2 ← consumeLit (strL ", ") r1
  let (d, r3) ← parse2D r2
  let r4 ← consumeLit ['-'] r3
  let (mo, r5) ← parseMonth r4
  let r6 ← consumeLit ['-'] r5
  let (y2, r7) ← parse2D r6
  let r8 ← consumeLit [' '] r7
  let ((h, mi, se), r9) ← parseHMS r8
  let r10 ← consumeLit (strL " GMT") r9
  let y := if 69 ≤ y2 then 1900 + y2 else 2000 + y2
  if r10.isEmpty then some (epochOf y mo d h mi se) else none

/-- Parse an asctime day-of-month (`%e`): either a space followed by one
digit, or two digits. -/
def parseAsctimeDay (s : List Char) : Option (Nat × List Char) :=
  match s with
  | ' ' :: b :: r => if b.isDigit then some (b.toNat - 48, r) else none
  | a :: b :: r =>
    if a.isDigit ∧ b.isDigit then some ((a.toNat - 48) * 10 + (b.toNat - 48), r)
    else none
  | _ => none

/-- ANSI C asctime format: `Sun Nov  6 08:49:37 1994`. -/
def parseAsctime (s : List Char) : Option Int := do
  let r1 ← parseOneOf weekdayNames s
  let r2 ← consumeLit [' '] r1
  let (mo, r3) ← parseMonth r2
  let r4 ← consumeLit [' '] r3
  let (d, r5) ← parseAsctimeDay r4
  let r6 ← consumeLit [' '] r5
  let ((h, mi, se), r7) ← parseHMS r6
  let r8 ← consumeLit [' '] r7
  let (y, r9) ← parse4D r8
  if r9.isEmpty then some (epochOf y mo d h mi se) else none

/-- `Internal::httpTime`: the null sentinel (`SystemTime()`, the epoch,
here `0`) on a null header entry; otherwise the three formats are tried in
order and the first full parse wins; the sentinel on total failure. -/
def httpTime (entry : Option (List Char)) : Int :=
  match entry with
  | none => 0
  | some s =>
    match parseIMF s with
    | some t => t
    | none =>
      match parseRfc850 s with
      | some t => t
      | none =>
        match parseAsctime s with
        | some t => t
        | none => 0


/-! ### The reference cache backend (`SimpleHttpCache`,
`simple_http_cache.h` / `src/unnamed/part_004`) -/

/-- Response headers, as a list of name/value pairs. -/
def Headers := List (List Char × List Char)
deriving instance DecidableEq for Headers

/-- A cache entry: `(response_headers, body)`. -/
structure SimpleEntry where
  headers : Headers
  body : List Char
deriving DecidableEq

/-- The backend's map from `Key` to entry (`absl::flat_hash_map`),
modelled as an association list with replace-on-insert. Keys are opaque. -/
def SimpleCache := List (Nat × SimpleEntry)

/-- `SimpleHttpCache::insert`: install (or replace) the entry for a key. -/
def cacheInsert : SimpleCache → Nat → SimpleEntry → SimpleCache
  | [], k, e => [(k, e)]
  | (k', e') :: m, k, e =>
    if k' = k then (k, e) :: m else (k', e') :: cacheInsert m k e

/-- `SimpleHttpCache::lookup`: the entry for a key, if present. -/
def cacheLookup : SimpleCache → Nat → Option SimpleEntry
  | [], _ => none
  | (k', e) :: m, k => if k' = k then some e else cacheLookup m k

/-- `SimpleLookupContext::getHeaders`: delivers the entry's headers
together with the body size (the body is retained for later `getBody`
calls). `none` models the `LookupResult{}` miss. -/
def getHeadersResult (m : SimpleCache) (k : Nat) : Option (Headers × Nat) :=
  (cacheLookup m k).map (fun e => (e.headers, e.body.length))

/-- `SimpleLookupContext::getBody` on an adjusted range `[f, l]`: the
buffer built from `&body_[first]` with length `last - first + 1`. The
`RELEASE_ASSERT(range.lastBytePos() < body_.length())` is a precondition
of the calling contract. -/
def getBodySlice (body : List Char) (f l : Nat) : List Char :=
  (body.drop f).take (l - f + 1)

/-- A list of adjusted ranges that covers `[o, n)` consecutively: each
range starts where the previous ended and the last ends at `n - 1`. -/
inductive Covers : Nat → List (Nat × Nat) → Nat → Prop where
  | nil (n : Nat) : Covers n [] n
  | cons {o l n : Nat} {rs : List (Nat × Nat)} (hol : o ≤ l)
      (h : Covers (l + 1) rs n) : Covers o ((o, l) :: rs) n

/-- `SimpleHttpCache::updateHeaders` is an unimplemented stub in the
source: it executes `ASSERT(lookup_context); ASSERT(response_headers);
// TODO(toddmgreer) Support updating headers. ASSERT(false);` and never
touches the map. Modelled as a terminal assertion failure (`none`): no
successor cache state exists, and in particular no state with replaced
headers. -/
def updateHeaders (_m : SimpleCache) (_k : Nat) (_h : Headers) :
    Option SimpleCache :=
  none

/-! ### The insert context (`SimpleInsertContext`) -/

/-- State of a `SimpleInsertContext`: the key captured from the lookup
context, the headers and body accumulated so far, and the committed flag. -/
structure InsCtx where
  key : Nat
  hdrs : Option Headers
  buf : List Char
  committed : Bool
deriving DecidableEq

/-- An operation on an insert context. `ready_for_next_chunk` has no cache
effect and is omitted. -/
inductive InsOp where
  | headers (h : Headers) (endStream : Bool) : InsOp
  | body (chunk : List Char) (endStream : Bool) : InsOp
deriving DecidableEq

/-- `SimpleInsertContext::commit`: set the committed flag and install the
accumulated entry under the captured key. -/
def commitCtx (m : SimpleCache) (c : InsCtx) : SimpleCache × InsCtx :=
  (cacheInsert m c.key ⟨c.hdrs.getD [], c.buf⟩, { c with committed := true })

/-- One insert-context operation. Both `insertHeaders` and `insertBody`
begin with `ASSERT(!committed_)`; calling either on a committed context is
a programmer-contract violation, modelled as the terminal `none` (spec
section 7: "assertion failure; not recoverable"). -/
def stepInsert (m : SimpleCache) (c : InsCtx) : InsOp → Option (SimpleCache × InsCtx)
  | .headers h es =>
    if c.committed then none
    else
      let c' := { c with hdrs := some h }
      if es then some (commitCtx m c') else some (m, c')
  | .body chunk es =>
    if c.committed then none
    else
      let c' := { c with buf := c.buf ++ chunk }
      if es then some (commitCtx m c') else some (m, c')

/-- Run a sequence of insert-context operations, stopping (with the cache
and context unchanged from that point) at the first assertion failure. -/
def runInsert : SimpleCache → InsCtx → List InsOp → SimpleCache × InsCtx
  | m, c, [] => (m, c)
  | m, c, op :: ops =>
    match stepInsert m c op with
    | none => (m, c)
    | some (m', c') => runInsert m' c' ops

/-- Number of commits performed along a run of insert-context operations. -/
def commitCount : SimpleCache → InsCtx → List InsOp → Nat
  | _, _, [] => 0
  | m, c, op :: ops =>
    match stepInsert m c op with
    | none => 0
    | some (m', c') =>
      (if c'.committed && !c.committed then 1 else 0) + commitCount m' c' ops

/-- A fresh insert context for a key, as built by `makeInsertContext`. -/
def freshCtx (k : Nat) : InsCtx := ⟨k, none, [], false⟩

/-- Shape of the text following one rendered directive inside a rendered
directive list: empty (last directive) or a comma followed by the rest. -/
def SepU (u : List Char) : Prop := u = [] ∨ ∃ r, u = ',' :: r

/-! ### Helper lemmas: `consumeLit` -/

theorem consumeLit_eq_some : ∀ {p s t : List Char},
    consumeLit p s = some t ↔ s = p ++ t := by
  intro p
  induction p with
  | nil => intro s t; simp [consumeLit]
  | cons x ps ih =>
    intro s t
    cases s with
    | nil =>
      simp only [consumeLit, List.cons_append]
      constructor
      · intro h; exact Option.noConfusion h
      · intro h; exact List.noConfusion h
    | cons c cs =>
      by_cases h : x = c
      · subst h
        simp [consumeLit, ih]
      · simp [consumeLit, h, Ne.symm h]

theorem consumeLit_self_append (p t : List Char) :
    consumeLit p (p ++ t) = some t :=
  consumeLit_eq_some.mpr rfl

theorem consumeLit_none_iff {p s : List Char} :
    consumeLit p s = none ↔ ∀ t, s ≠ p ++ t := by
  cases h : consumeLit p s with
  | some t =>
    constructor
    · intro hc; exact Option.noConfusion hc
    · intro hall; exact absurd (consumeLit_eq_some.mp h) (hall t)
  | none =>
    constructor
    · intro _ t ht
      have h2 : consumeLit p s = some t := consumeLit_eq_some.mpr ht
      rw [h] at h2; exact Option.noConfusion h2
    · intro _; rfl

theorem consumeLit_append_lift : ∀ (p a b : List Char),
    (∀ c, b.head? = some c → c ∉ p) →
    consumeLit p (a ++ b) =
      match consumeLit p a with
      | some t => some (t ++ b)
      | none => none := by
  intro p
  induction p with
  | nil => intro a b _; simp [consumeLit]
  | cons x ps ih =>
    intro a b hb
    cases a with
    | nil =>
      cases b with
      | nil => simp [consumeLit]
      | cons c cs =>
        have hc : c ∉ (x :: ps) := hb c rfl
        have hcx : ¬ (x = c) := fun h => hc (h ▸ List.mem_cons_self x ps)
        simp [consumeLit, hcx]
    | cons a' as =>
      by_cases h : x = a'
      · subst h
        simp only [List.cons_append, consumeLit, if_pos rfl]
        exact ih as b (fun c hc hm => hb c hc (List.mem_cons_of_mem _ hm))
      · simp [consumeLit, h]

theorem consumeLit_mem {p s t : List Char} (h : consumeLit p s = some t) :
    ∀ x ∈ p, x ∈ s := by
  intro x hx
  rw [consumeLit_eq_some.mp h]
  exact List.mem_append_left _ hx

theorem consumeLit_head {x : Char} {ps s t : List Char}
    (h : consumeLit (x :: ps) s = some t) : s.head? = some x := by
  rw [consumeLit_eq_some.mp h]; rfl

theorem consumeLit_all_none {p s : List Char} {f : Char → Bool}
    (hs : s.all f = true) (x : Char) (hx : x ∈ p) (hfx : f x = false) :
    consumeLit p s = none := by
  cases h : consumeLit p s with
  | none => rfl
  | some t =>
    have := consumeLit_mem h x hx
    have := List.all_eq_true.mp hs x this
    rw [hfx] at this
    exact Bool.noConfusion this

/-- Cancellation through the first `=`: if `a` and `b` are `=`-free (here:
all tchars), `a ++ '=' :: u = b ++ '=' :: v` forces `a = b` and `u = v`. -/
theorem append_eq_cancel : ∀ {a b u v : List Char},
    a.all isTchar = true → b.all isTchar = true →
    a ++ '=' :: u = b ++ '=' :: v → a = b ∧ u = v := by
  intro a
  induction a with
  | nil =>
    intro b u v _ hb h
    cases b with
    | nil => simpa using h
    | cons y bs =>
      simp only [List.nil_append, List.cons_append, List.cons.injEq] at h
      have hy : isTchar y = true := by
        have := List.all_eq_true.mp hb y (List.mem_cons_self y bs)
        exact this
      rw [← h.1] at hy
      exact absurd hy (by decide)
  | cons x as ih =>
    intro b u v ha hb h
    cases b with
    | nil =>
      simp only [List.cons_append, List.nil_append, List.cons.injEq] at h
      have hx : isTchar x = true := List.all_eq_true.mp ha x (List.mem_cons_self x as)
      rw [h.1] at hx
      exact absurd hx (by decide)
    | cons y bs =>
      simp only [List.cons_append, List.cons.injEq] at h
      have has : as.all isTchar = true := by
        simp only [List.all_cons, Bool.and_eq_true] at ha; exact ha.2
      have hbs : bs.all isTchar = true := by
        simp only [List.all_cons, Bool.and_eq_true] at hb; exact hb.2
      obtain ⟨hab, huv⟩ := ih has hbs h.2
      exact ⟨by rw [h.1, hab], huv⟩

/-- `ConsumePrefix` of `base=` against a rendered `tok=arg...`: matches
exactly when the directive token equals `base`. -/
theorem consumeLit_tokEq {base tok B : List Char}
    (hbase : base.all isTchar = true) (htok : tok.all isTchar = true) :
    consumeLit (base ++ ['=']) (tok ++ '=' :: B) =
      if tok = base then some B else none := by
  by_cases h : tok = base
  · subst h
    rw [if_pos rfl]
    have : tok ++ '=' :: B = (tok ++ ['=']) ++ B := by simp
    rw [this, consumeLit_self_append]
  · rw [if_neg h]
    cases hc : consumeLit (base ++ ['=']) (tok ++ '=' :: B) with
    | none => rfl
    | some u =>
      have := consumeLit_eq_some.mp hc
      rw [List.append_assoc] at this
      simp only [List.singleton_append] at this
      exact absurd (append_eq_cancel htok hbase this).1 h

/-! ### Helper lemmas: `takeWhile`/`dropWhile` over appends -/

theorem takeWhile_app {f : Char → Bool} : ∀ {a b : List Char},
    (∀ c ∈ a, f c = true) → (∀ c, b.head? = some c → f c = false) →
    (a ++ b).takeWhile f = a := by
  intro a
  induction a with
  | nil =>
    intro b _ hb
    cases b with
    | nil => rfl
    | cons c cs => simp [List.takeWhile_cons, hb c rfl]
  | cons x as ih =>
    intro b ha hb
    have hx : f x = true := ha x (List.mem_cons_self x as)
    simp [List.takeWhile_cons, hx, ih (fun c hc => ha c (List.mem_cons_of_mem _ hc)) hb]

theorem dropWhile_app {f : Char → Bool} : ∀ {a b : List Char},
    (∀ c ∈ a, f c = true) → (∀ c, b.head? = some c → f c = false) →
    (a ++ b).dropWhile f = b := by
  intro a
  induction a with
  | nil =>
    intro b _ hb
    cases b with
    | nil => rfl
    | cons c cs => simp [List.dropWhile_cons, hb c rfl]
  | cons x as ih =>
    intro b ha hb
    have hx : f x = true := ha x (List.mem_cons_self x as)
    simp [List.dropWhile_cons, hx, ih (fun c hc => ha c (List.mem_cons_of_mem _ hc)) hb]

/-! ### Helper lemmas: character classes -/

theorem digit_isTchar {c : Char} (h : c.isDigit = true) : isTchar c = true := by
  unfold isTchar
  have : c.isAlphanum = true := by
    unfold Char.isAlphanum
    rw [h]; simp
  simp [this]

theorem tchar_not_ws {c : Char} (h : isTchar c = true) : isAsciiWs c = false := by
  cases hw : isAsciiWs c with
  | false => rfl
  | true =>
    exfalso
    unfold isAsciiWs at hw
    simp only [Bool.or_eq_true, decide_eq_true_eq] at hw
    rcases hw with ((((h1 | h1) | h1) | h1) | h1) | h1 <;>
      (subst h1; exact absurd h (by decide))

theorem tchar_ne_comma {c : Char} (h : isTchar c = true) : c ≠ ',' := by
  intro hc; subst hc; exact absurd h (by decide)

theorem tchar_ne_eq {c : Char} (h : isTchar c = true) : c ≠ '=' := by
  intro hc; subst hc; exact absurd h (by decide)

theorem tchar_ne_quote {c : Char} (h : isTchar c = true) : c ≠ '\"' := by
  intro hc; subst hc; exact absurd h (by decide)

theorem digit_ne_comma {c : Char} (h : c.isDigit = true) : c ≠ ',' := by
  intro hc; subst hc; exact absurd h (by decide)

/-! ### Helper lemmas: separator tails -/

theorem sepU_head {u : List Char} (hu : SepU u) {f : Char → Bool}
    (hf : f ',' = false) : ∀ c, u.head? = some c → f c = false := by
  rcases hu with rfl | ⟨r, rfl⟩
  · intro c hc; exact Option.noConfusion hc
  · intro c hc
    simp only [List.head?_cons, Option.some.injEq] at hc
    rw [← hc]; exact hf

theorem sepU_head_notMem {u : List Char} (hu : SepU u) {p : List Char}
    (hp : ',' ∉ p) : ∀ c, u.head? = some c → c ∉ p := by
  rcases hu with rfl | ⟨r, rfl⟩
  · intro c hc; exact Option.noConfusion hc
  · intro c hc
    simp only [List.head?_cons, Option.some.injEq] at hc
    rw [← hc]; exact hp

/-! ### Helper lemmas: one step of each scanner primitive -/

theorem eatToken_app {v w : List Char} (hv : v ≠ [])
    (hall : v.all isTchar = true)
    (hw : ∀ c, w.head? = some c → isTchar c = false) :
    eatToken (v ++ w) = (true, w) := by
  unfold eatToken
  rw [takeWhile_app (List.all_eq_true.mp hall) hw,
      dropWhile_app (List.all_eq_true.mp hall) hw]
  simp [hv]

theorem eatToken_stop {w : List Char}
    (hw : ∀ c, w.head? = some c → isTchar c = false) :
    eatToken w = (false, w) := by
  unfold eatToken
  cases w with
  | nil => rfl
  | cons c cs =>
    have := hw c rfl
    simp [List.takeWhile_cons, List.dropWhile_cons, this]

theorem eatDirArg_token {a u : List Char} (ha : a ≠ [])
    (hall : a.all isTchar = true)
    (hu : ∀ c, u.head? = some c → isTchar c = false) :
    eatDirectiveArgument (a ++ u) = u := by
  cases a with
  | nil => exact absurd rfl ha
  | cons c as =>
    have hc : isTchar c = true :=
      List.all_eq_true.mp hall c (List.mem_cons_self c as)
    have hq : ¬ (c = '\"') := tchar_ne_quote hc
    have het := eatToken_app (v := c :: as) (w := u) (by simp) hall hu
    show eatDirectiveArgument (c :: (as ++ u)) = u
    simp only [eatDirectiveArgument, if_neg hq]
    have : (eatToken ((c :: as) ++ u)).2 = u := by rw [het]
    simpa using this

theorem eatDirArg_quoted {i u : List Char}
    (hi : i.all (fun c => !(c = '\"' : Bool)) = true) :
    eatDirectiveArgument ('\"' :: (i ++ '\"' :: u)) = '\"' :: u := by
  simp only [eatDirectiveArgument, if_pos rfl]
  exact dropWhile_app (List.all_eq_true.mp hi)
    (fun c hc => by
      simp only [List.head?_cons, Option.some.injEq] at hc
      rw [← hc]; simp)

theorem consumeLit_cons_ne {x c : Char} {ps cs : List Char} (h : ¬ x = c) :
    consumeLit (x :: ps) (c :: cs) = none := by
  simp [consumeLit, h]

theorem commaSkip_not_comma {s : List Char} (h : s.head? ≠ some ',') :
    commaSkip s = s := by
  unfold commaSkip
  cases s with
  | nil => rfl
  | cons c cs =>
    have hc : ¬ (',' = c) := by
      intro he; exact h (by rw [← he]; rfl)
    rw [consumeLit_cons_ne hc]

theorem stripWs_not_ws {s : List Char}
    (h : ∀ c, s.head? = some c → isAsciiWs c = false) : stripWs s = s := by
  unfold stripWs
  cases s with
  | nil => rfl
  | cons c cs => simp [List.dropWhile_cons, h c rfl]

theorem stripWs_len (s : List Char) : (stripWs s).length ≤ s.length := by
  unfold stripWs
  induction s with
  | nil => simp
  | cons c cs ih =>
    rw [List.dropWhile_cons]
    by_cases h : isAsciiWs c = true
    · simp only [h, if_true]; exact Nat.le_succ_of_le ih
    · simp [h]

theorem commaSkip_len (s : List Char) : (commaSkip s).length ≤ s.length := by
  unfold commaSkip
  cases h : consumeLit [','] s with
  | none => exact Nat.le_refl _
  | some r =>
    have := consumeLit_eq_some.mp h
    subst this
    simp

theorem rrld_digits_app {a u : List Char} (ha : a ≠ [])
    (hd : a.all Char.isDigit = true)
    (hu : ∀ c, u.head? = some c → c.isDigit = false) :
    readAndRemoveLeadingDigits (a ++ u) =
      if digitsVal a < U64 then (some (digitsVal a), u) else (none, a ++ u) := by
  have ht := takeWhile_app (f := Char.isDigit) (List.all_eq_true.mp hd) hu
  have hdw := dropWhile_app (f := Char.isDigit) (List.all_eq_true.mp hd) hu
  have hae : a.isEmpty = false := by
    cases a with
    | nil => exact absurd rfl ha
    | cons c cs => rfl
  simp only [readAndRemoveLeadingDigits, ht, hdw, hae, Bool.false_eq_true,
    if_false]

theorem rrld_nondigit {s : List Char}
    (hs : ∀ c, s.head? = some c → c.isDigit = false) :
    readAndRemoveLeadingDigits s = (none, s) := by
  unfold readAndRemoveLeadingDigits
  cases s with
  | nil => rfl
  | cons c cs =>
    have := hs c rfl
    simp [List.takeWhile_cons, this]

theorem eld_digits_ok {a u : List Char} (ha : a ≠ [])
    (hd : a.all Char.isDigit = true) (hlt : digitsVal a < U64) (hu : SepU u) :
    eatLeadingDuration (a ++ u) =
      (if 2 ^ 63 ≤ digitsVal a then .max else .secs (Int.ofNat (digitsVal a)), u) := by
  have h1 : readAndRemoveLeadingDigits (a ++ u) = (some (digitsVal a), u) := by
    rw [rrld_digits_app ha hd (sepU_head hu (by decide)), if_pos hlt]
  simp only [eatLeadingDuration, h1]
  rcases hu with rfl | ⟨r, rfl⟩
  · rfl
  · have hcd : (',' : Char).isDigit = false := by decide
    simp [hcd]

theorem eld_digits_overflow {a u : List Char} (ha : a ≠ [])
    (hd : a.all Char.isDigit = true) (hge : ¬ digitsVal a < U64) (hu : SepU u) :
    eatLeadingDuration (a ++ u) = (.max, a ++ u) := by
  have h1 : readAndRemoveLeadingDigits (a ++ u) = (none, a ++ u) := by
    rw [rrld_digits_app ha hd (sepU_head hu (by decide)), if_neg hge]
  have hdw : (a ++ u).dropWhile Char.isDigit = u :=
    dropWhile_app (List.all_eq_true.mp hd) (sepU_head hu (by decide))
  cases a with
  | nil => exact absurd rfl ha
  | cons c cs =>
    have hc : c.isDigit = true := List.all_eq_true.mp hd c (List.mem_cons_self c cs)
    simp only [List.cons_append] at h1 hdw ⊢
    simp only [eatLeadingDuration, h1, hc, if_true, hdw]
    rcases hu with rfl | ⟨r, rfl⟩
    · simp [hc]
    · simp [hc]

theorem eld_mixed_small {D r u : List Char} (hD : D.all Char.isDigit = true)
    (hDlt : digitsVal D < U64) (hr : r ≠ [])
    (hrh : ∀ c, r.head? = some c → c.isDigit = false ∧ c ≠ ',') :
    eatLeadingDuration (D ++ (r ++ u)) = (.zero, r ++ u) := by
  have hru : ∀ c, (r ++ u).head? = some c → c.isDigit = false := by
    intro c hc
    cases r with
    | nil => exact absurd rfl hr
    | cons x xs =>
      simp only [List.cons_append, List.head?_cons, Option.some.injEq] at hc
      subst hc
      exact (hrh x rfl).1
  cases r with
  | nil => exact absurd rfl hr
  | cons x xs =>
    have h1 := (hrh x rfl).1
    have h2 := (hrh x rfl).2
    cases hDe : D with
    | nil =>
      have h3 : readAndRemoveLeadingDigits ((x :: xs) ++ u) = (none, (x :: xs) ++ u) :=
        rrld_nondigit hru
      subst hDe
      simp only [List.nil_append, List.cons_append] at h3 ⊢
      simp [eatLeadingDuration, h3, h1, h2]
    | cons d ds =>
      rw [← hDe]
      have hDne : D ≠ [] := by rw [hDe]; simp
      have h3 : readAndRemoveLeadingDigits (D ++ ((x :: xs) ++ u)) =
          (some (digitsVal D), (x :: xs) ++ u) := by
        rw [rrld_digits_app hDne hD hru, if_pos hDlt]
      simp only [List.cons_append] at h3 ⊢
      simp [eatLeadingDuration, h3, h1, h2]

theorem eld_mixed_overflow {D r u : List Char} (hD : D.all Char.isDigit = true)
    (hDge : ¬ digitsVal D < U64) (hr : r ≠ [])
    (hrh : ∀ c, r.head? = some c → c.isDigit = false ∧ c ≠ ',') :
    eatLeadingDuration (D ++ (r ++ u)) = (.zero, D ++ (r ++ u)) := by
  have hru : ∀ c, (r ++ u).head? = some c → c.isDigit = false := by
    intro c hc
    cases r with
    | nil => exact absurd rfl hr
    | cons x xs =>
      simp only [List.cons_append, List.head?_cons, Option.some.injEq] at hc
      subst hc
      exact (hrh x rfl).1
  have hDne : D ≠ [] := by
    intro h; rw [h] at hDge
    exact hDge (by unfold digitsVal U64; simp)
  have h3 : readAndRemoveLeadingDigits (D ++ (r ++ u)) = (none, D ++ (r ++ u)) := by
    rw [rrld_digits_app hDne hD hru, if_neg hDge]
  have hdw : (D ++ (r ++ u)).dropWhile Char.isDigit = r ++ u :=
    dropWhile_app (List.all_eq_true.mp hD) hru
  cases D with
  | nil => exact absurd rfl hDne
  | cons d ds =>
    have hddig : d.isDigit = true := List.all_eq_true.mp hD d (List.mem_cons_self d ds)
    cases r with
    | nil => exact absurd rfl hr
    | cons x xs =>
      have h1 := (hrh x rfl).1
      have h2 := (hrh x rfl).2
      simp only [List.cons_append] at h3 hdw ⊢
      simp only [eatLeadingDuration, h3, hddig, if_true, hdw]
      simp [hddig, h1, h2]

theorem append_isEmpty_false {a b : List Char} (ha : a ≠ []) :
    (a ++ b).isEmpty = false := by
  cases a with
  | nil => exact absurd rfl ha
  | cons c cs => rfl

theorem lift_none {p a b : List Char}
    (hb : ∀ c, b.head? = some c → c ∉ p) (h : consumeLit p a = none) :
    consumeLit p (a ++ b) = none := by
  rw [consumeLit_append_lift p a b hb, h]

theorem lift_some {p a b t : List Char}
    (hb : ∀ c, b.head? = some c → c ∉ p) (h : consumeLit p a = some t) :
    consumeLit p (a ++ b) = some (t ++ b) := by
  rw [consumeLit_append_lift p a b hb, h]

theorem sep_consume_none {x : Char} {u : List Char} (hx : ¬ x = ',')
    (hu : SepU u) : consumeLit [x] u = none := by
  rcases hu with rfl | ⟨r, rfl⟩
  · rfl
  · exact consumeLit_cons_ne hx

theorem eld_nondigit_noncomma {c : Char} {cs : List Char}
    (h1 : c.isDigit = false) (h2 : c ≠ ',') :
    eatLeadingDuration (c :: cs) = (.zero, c :: cs) := by
  have h3 : readAndRemoveLeadingDigits (c :: cs) = (none, c :: cs) :=
    rrld_nondigit (by
      intro x hx
      simp only [List.head?_cons, Option.some.injEq] at hx
      subst hx
      exact h1)
  simp [eatLeadingDuration, h3, h1, h2]

/-! ### One scanner pass over a rendered directive -/

theorem emaStepNoArg {v u : List Char} {ma : Duration} {fs : Bool} {fuel : Nat}
    (hv : v ≠ []) (hall : v.all isTchar = true) (hu : SepU u)
    (hfuel : (v ++ u).length < fuel) :
    ∃ f', (stripWs (commaSkip u)).length < f' ∧
      emaLoop fuel (v ++ u) ma fs =
        (match consumeLit ncL v with
         | some rest =>
           if rest.isEmpty then Duration.zero
           else emaLoop f' (stripWs (commaSkip u)) ma fs
         | none => emaLoop f' (stripWs (commaSkip u)) ma fs) := by
  obtain ⟨f, rfl⟩ : ∃ f, fuel = f + 1 := ⟨fuel - 1, by omega⟩
  refine ⟨f, ?_, ?_⟩
  · have l1 := stripWs_len (commaSkip u)
    have l2 := commaSkip_len u
    have l3 : 1 ≤ v.length := List.length_pos.mpr hv
    rw [List.length_append] at hfuel
    omega
  · have hne : (v ++ u).isEmpty = false := append_isEmpty_false hv
    have hsepT : ∀ c, u.head? = some c → isTchar c = false :=
      sepU_head hu (by decide)
    have h4 : eatToken (v ++ u) = (true, u) := eatToken_app hv hall hsepT
    have h5 : consumeLit ['='] u = none := sep_consume_none (by decide) hu
    cases hnc : consumeLit ncL v with
    | some rest =>
      have hlift : consumeLit ncL (v ++ u) = some (rest ++ u) :=
        lift_some (sepU_head_notMem hu (by decide)) hnc
      have hveq : v = ncL ++ rest := consumeLit_eq_some.mp hnc
      have hrall : rest.all isTchar = true := by
        rw [hveq, List.all_append, Bool.and_eq_true] at hall
        exact hall.2
      by_cases hre : rest = []
      · subst hre
        have hstop : eatToken u = (false, u) := eatToken_stop hsepT
        simp only [emaLoop, hne, Bool.false_eq_true, if_false, hlift,
          List.nil_append, hstop, List.isEmpty_nil, if_true]
      · have hres : eatToken (rest ++ u) = (true, u) := eatToken_app hre hrall hsepT
        have hreB : rest.isEmpty = false := by
          cases rest with
          | nil => exact absurd rfl hre
          | cons _ _ => rfl
        simp only [emaLoop, hne, Bool.false_eq_true, if_false, hlift, hres,
          if_true, h5, hreB]
    | none =>
      have h1 : consumeLit ncL (v ++ u) = none :=
        lift_none (sepU_head_notMem hu (by decide)) hnc
      have h2 : consumeLit smL (v ++ u) = none :=
        lift_none (sepU_head_notMem hu (by decide))
          (consumeLit_all_none hall '=' (by decide) (by decide))
      have h3 : consumeLit maL (v ++ u) = none :=
        lift_none (sepU_head_notMem hu (by decide))
          (consumeLit_all_none hall '=' (by decide) (by decide))
      cases fs with
      | false =>
        simp only [emaLoop, hne, Bool.false_eq_true, if_false, h1, h2, h3, h4,
          if_true, h5]
      | true =>
        simp only [emaLoop, hne, Bool.false_eq_true, if_false, h1, h2, if_true,
          h4, h5]

theorem head_false_of_cons {x : Char} {X : List Char} {f : Char → Bool}
    (hx : f x = false) : ∀ c, (x :: X).head? = some c → f c = false := by
  intro c hc
  simp only [List.head?_cons, Option.some.injEq] at hc
  subst hc
  exact hx

theorem head_notMem_of_cons {x : Char} {X p : List Char} (hx : x ∉ p) :
    ∀ c, (x :: X).head? = some c → c ∉ p := by
  intro c hc
  simp only [List.head?_cons, Option.some.injEq] at hc
  subst hc
  exact hx

theorem consume_eq_cons {X : List Char} : consumeLit ['='] ('=' :: X) = some X := by
  simp [consumeLit]

theorem emaLoop_quoteHead {f : Nat} {X : List Char} {ma : Duration} {fs : Bool} :
    emaLoop (f + 1) ('\"' :: X) ma fs = Duration.zero := by
  have h1 : consumeLit ncL ('\"' :: X) = none := consumeLit_cons_ne (by decide)
  have h2 : consumeLit smL ('\"' :: X) = none := consumeLit_cons_ne (by decide)
  have h3 : consumeLit maL ('\"' :: X) = none := consumeLit_cons_ne (by decide)
  have h4 : eatToken ('\"' :: X) = (false, '\"' :: X) :=
    eatToken_stop (head_false_of_cons (by decide))
  cases fs with
  | false =>
    simp only [emaLoop, List.isEmpty_cons, Bool.false_eq_true, if_false, h1,
      h2, h3, h4]
  | true =>
    simp only [emaLoop, List.isEmpty_cons, Bool.false_eq_true, if_false, h1,
      h2, if_true, h4]

theorem emaStepQuoted {tok i u : List Char} {ma : Duration} {fs : Bool}
    {fuel : Nat} (htokne : tok ≠ []) (htok : tok.all isTchar = true)
    (hi : i.all (fun c => !(c = '\"' : Bool)) = true) (_hu : SepU u)
    (hfuel : (tok ++ '=' :: '\"' :: (i ++ '\"' :: u)).length < fuel) :
    emaLoop fuel (tok ++ '=' :: '\"' :: (i ++ '\"' :: u)) ma fs =
      Duration.zero := by
  obtain ⟨f, rfl⟩ : ∃ f, fuel = f + 1 := ⟨fuel - 1, by omega⟩
  obtain ⟨f2, rfl⟩ : ∃ f2, f = f2 + 1 := by
    refine ⟨f - 1, ?_⟩
    rw [List.length_append] at hfuel
    simp only [List.length_cons] at hfuel
    omega
  have hne : (tok ++ '=' :: '\"' :: (i ++ '\"' :: u)).isEmpty = false :=
    append_isEmpty_false htokne
  have hBt : ∀ c, ('=' :: '\"' :: (i ++ '\"' :: u)).head? = some c →
      isTchar c = false := head_false_of_cons (by decide)
  have hquote : eatDirectiveArgument ('\"' :: (i ++ '\"' :: u)) = '\"' :: u :=
    eatDirArg_quoted hi
  have hcsq : commaSkip ('\"' :: u) = '\"' :: u :=
    commaSkip_not_comma (by simp)
  have hswq : stripWs ('\"' :: u) = '\"' :: u :=
    stripWs_not_ws (head_false_of_cons (by decide))
  cases hnc : consumeLit ncL tok with
  | some rest =>
    have hlift : consumeLit ncL (tok ++ '=' :: '\"' :: (i ++ '\"' :: u)) =
        some (rest ++ '=' :: '\"' :: (i ++ '\"' :: u)) :=
      lift_some (head_notMem_of_cons (by decide)) hnc
    have hveq : tok = ncL ++ rest := consumeLit_eq_some.mp hnc
    have hrall : rest.all isTchar = true := by
      rw [hveq, List.all_append, Bool.and_eq_true] at htok
      exact htok.2
    by_cases hre : rest = []
    · subst hre
      have hstop : eatToken ('=' :: '\"' :: (i ++ '\"' :: u)) =
          (false, '=' :: '\"' :: (i ++ '\"' :: u)) := eatToken_stop hBt
      simp only [emaLoop, hne, Bool.false_eq_true, if_false, hlift,
        List.nil_append, hstop]
    · have hres : eatToken (rest ++ '=' :: '\"' :: (i ++ '\"' :: u)) =
          (true, '=' :: '\"' :: (i ++ '\"' :: u)) := eatToken_app hre hrall hBt
      obtain ⟨g, hg⟩ : ∃ g, f2 + 1 = g := ⟨f2 + 1, rfl⟩
      rw [hg]
      simp only [emaLoop, hne, Bool.false_eq_true, if_false, hlift, hres,
        if_true, consume_eq_cons, hquote, hcsq, hswq]
      rw [← hg]
      exact emaLoop_quoteHead
  | none =>
    have hsmEq : consumeLit smL (tok ++ '=' :: ('\"' :: (i ++ '\"' :: u))) =
        if tok = smTok then some ('\"' :: (i ++ '\"' :: u)) else none :=
      consumeLit_tokEq (by decide) htok
    have hmaEq : consumeLit maL (tok ++ '=' :: ('\"' :: (i ++ '\"' :: u))) =
        if tok = maTok then some ('\"' :: (i ++ '\"' :: u)) else none :=
      consumeLit_tokEq (by decide) htok
    have hlift : consumeLit ncL (tok ++ '=' :: '\"' :: (i ++ '\"' :: u)) =
        none := lift_none (head_notMem_of_cons (by decide)) hnc
    have heldq : eatLeadingDuration ('\"' :: (i ++ '\"' :: u)) =
        (.zero, '\"' :: (i ++ '\"' :: u)) :=
      eld_nondigit_noncomma (by decide) (by decide)
    by_cases hsm : tok = smTok
    · subst hsm
      rw [if_pos rfl] at hsmEq
      have hsw : stripWs ('\"' :: (i ++ '\"' :: u)) = '\"' :: (i ++ '\"' :: u) :=
        stripWs_not_ws (head_false_of_cons (by decide))
      simp only [emaLoop, hne, Bool.false_eq_true, if_false, hlift, hsmEq,
        heldq, hsw, List.isEmpty_cons, List.head?_cons]
      simp
    · rw [if_neg hsm] at hsmEq
      by_cases hma_ : tok = maTok ∧ fs = false
      · obtain ⟨rfl, rfl⟩ := hma_
        rw [if_pos rfl] at hmaEq
        have hcs2 : commaSkip ('\"' :: (i ++ '\"' :: u)) = '\"' :: (i ++ '\"' :: u) :=
          commaSkip_not_comma (by simp)
        have hsw2 : stripWs ('\"' :: (i ++ '\"' :: u)) = '\"' :: (i ++ '\"' :: u) :=
          stripWs_not_ws (head_false_of_cons (by decide))
        obtain ⟨g, hg⟩ : ∃ g, f2 + 1 = g := ⟨f2 + 1, rfl⟩
        rw [hg]
        simp only [emaLoop, hne, Bool.false_eq_true, if_false, hlift, hsmEq,
          if_false, hmaEq, heldq, hcs2, hsw2]
        rw [← hg]
        exact emaLoop_quoteHead
      · have hres : eatToken (tok ++ '=' :: '\"' :: (i ++ '\"' :: u)) =
            (true, '=' :: '\"' :: (i ++ '\"' :: u)) :=
          eatToken_app htokne htok hBt
        cases fs with
        | true =>
          obtain ⟨g, hg⟩ : ∃ g, f2 + 1 = g := ⟨f2 + 1, rfl⟩
          rw [hg]
          simp only [emaLoop, hne, Bool.false_eq_true, if_false, hlift, hsmEq,
            if_true, hres, consume_eq_cons, hquote, hcsq, hswq]
          rw [← hg]
          exact emaLoop_quoteHead
        | false =>
          have hmane : ¬ (tok = maTok) := fun h => hma_ ⟨h, rfl⟩
          rw [if_neg hmane] at hmaEq
          obtain ⟨g, hg⟩ : ∃ g, f2 + 1 = g := ⟨f2 + 1, rfl⟩
          rw [hg]
          simp only [emaLoop, hne, Bool.false_eq_true, if_false, hlift, hsmEq,
            hmaEq, hres, if_true, consume_eq_cons, hquote, hcsq, hswq]
          rw [← hg]
          exact emaLoop_quoteHead

theorem mem_of_headq {c : Char} : ∀ {l : List Char}, l.head? = some c → c ∈ l := by
  intro l h
  cases l with
  | nil => exact Option.noConfusion h
  | cons x xs =>
    simp only [List.head?_cons, Option.some.injEq] at h
    subst h
    exact List.mem_cons_self x xs

theorem head_dropWhile_false {f : Char → Bool} :
    ∀ (l : List Char) {c : Char}, ((l.dropWhile f).head? = some c) → f c = false := by
  intro l
  induction l with
  | nil => intro c hc; exact Option.noConfusion hc
  | cons x xs ih =>
    intro c hc
    rw [List.dropWhile_cons] at hc
    by_cases hx : f x = true
    · rw [if_pos hx] at hc; exact ih hc
    · rw [if_neg hx] at hc
      simp only [List.head?_cons, Option.some.injEq] at hc
      subst hc
      exact Bool.not_eq_true _ ▸ (Bool.eq_false_iff.mpr hx)

theorem emaStepTokArg {tok a u : List Char} {ma : Duration} {fs : Bool}
    {fuel : Nat} (htokne : tok ≠ []) (htok : tok.all isTchar = true)
    (hane : a ≠ []) (haall : a.all isTchar = true) (hu : SepU u)
    (hfuel : (tok ++ '=' :: (a ++ u)).length < fuel) :
    ∃ f', (stripWs (commaSkip u)).length < f' ∧
      emaLoop fuel (tok ++ '=' :: (a ++ u)) ma fs =
        (match dirStep ⟨tok, some (.tok a)⟩ ma fs with
         | none => Duration.zero
         | some (ma', fs') => emaLoop f' (stripWs (commaSkip u)) ma' fs') := by
  obtain ⟨f, rfl⟩ : ∃ f, fuel = f + 1 := ⟨fuel - 1, by omega⟩
  have hlens : tok.length + 1 + (a.length + u.length) < f + 1 := by
    rw [List.length_append, List.length_cons, List.length_append] at hfuel
    omega
  have htokpos : 1 ≤ tok.length := List.length_pos.mpr htokne
  have hapos : 1 ≤ a.length := List.length_pos.mpr hane
  have hscu : (stripWs (commaSkip u)).length ≤ u.length :=
    le_trans (stripWs_len _) (commaSkip_len u)
  have hbound : (stripWs (commaSkip u)).length < f := by omega
  have hne : (tok ++ '=' :: (a ++ u)).isEmpty = false := append_isEmpty_false htokne
  have hBt : ∀ c, ('=' :: (a ++ u)).head? = some c → isTchar c = false :=
    head_false_of_cons (by decide)
  have hsepT : ∀ c, u.head? = some c → isTchar c = false :=
    sepU_head hu (by decide)
  have hswu : stripWs u = u := stripWs_not_ws (sepU_head hu (by decide))
  cases hnc : consumeLit ncL tok with
  | some rest =>
    have hlift : consumeLit ncL (tok ++ '=' :: (a ++ u)) =
        some (rest ++ '=' :: (a ++ u)) :=
      lift_some (head_notMem_of_cons (by decide)) hnc
    have hveq : tok = ncL ++ rest := consumeLit_eq_some.mp hnc
    have hrall : rest.all isTchar = true := by
      rw [hveq, List.all_append, Bool.and_eq_true] at htok
      exact htok.2
    by_cases hre : rest = []
    · subst hre
      have hds : dirStep ⟨tok, some (.tok a)⟩ ma fs = none := by
        simp [dirStep, hnc]
      have hstop : eatToken ('=' :: (a ++ u)) = (false, '=' :: (a ++ u)) :=
        eatToken_stop hBt
      refine ⟨f, hbound, ?_⟩
      rw [hds]
      simp only [emaLoop, hne, Bool.false_eq_true, if_false, hlift,
        List.nil_append, hstop]
    · have hds : dirStep ⟨tok, some (.tok a)⟩ ma fs = some (ma, fs) := by
        simp [dirStep, hnc, hre]
      have hres : eatToken (rest ++ '=' :: (a ++ u)) = (true, '=' :: (a ++ u)) :=
        eatToken_app hre hrall hBt
      have hda : eatDirectiveArgument (a ++ u) = u :=
        eatDirArg_token hane haall hsepT
      refine ⟨f, hbound, ?_⟩
      rw [hds]
      simp only [emaLoop, hne, Bool.false_eq_true, if_false, hlift, hres,
        if_true, consume_eq_cons, hda]
  | none =>
    have hlift : consumeLit ncL (tok ++ '=' :: (a ++ u)) = none :=
      lift_none (head_notMem_of_cons (by decide)) hnc
    have hsmEq : consumeLit smL (tok ++ '=' :: (a ++ u)) =
        if tok = smTok then some (a ++ u) else none :=
      consumeLit_tokEq (by decide) htok
    have hmaEq : consumeLit maL (tok ++ '=' :: (a ++ u)) =
        if tok = maTok then some (a ++ u) else none :=
      consumeLit_tokEq (by decide) htok
    by_cases hsm : tok = smTok
    · subst hsm
      rw [if_pos rfl] at hsmEq
      by_cases hdig : a.all Char.isDigit = true
      · by_cases hlt : digitsVal a < U64
        · have heldv := eld_digits_ok hane hdig hlt hu
          have hds : dirStep ⟨smTok, some (.tok a)⟩ ma fs =
              some (if 2 ^ 63 ≤ digitsVal a then .max
                    else .secs (Int.ofNat (digitsVal a)), true) := by
            simp [dirStep, hnc, hdig, hlt]
          have hchk : (u.isEmpty || decide (u.head? = some ',')) = true := by
            rcases hu with rfl | ⟨r, rfl⟩ <;> simp
          refine ⟨f, hbound, ?_⟩
          rw [hds]
          simp only [emaLoop, hne, Bool.false_eq_true, if_false, hlift, hsmEq,
            heldv, hswu, hchk, if_true]
        · have heldv := eld_digits_overflow hane hdig hlt hu
          have hds : dirStep ⟨smTok, some (.tok a)⟩ ma fs = none := by
            simp [dirStep, hnc, hdig, hlt]
          obtain ⟨c, cs, rfl⟩ : ∃ c cs, a = c :: cs := by
            cases a with
            | nil => exact absurd rfl hane
            | cons c cs => exact ⟨c, cs, rfl⟩
          have hcd : c.isDigit = true :=
            List.all_eq_true.mp hdig c (List.mem_cons_self c cs)
          have hsw2 : stripWs ((c :: cs) ++ u) = (c :: cs) ++ u :=
            stripWs_not_ws (head_false_of_cons (tchar_not_ws (digit_isTchar hcd)))
          refine ⟨f, hbound, ?_⟩
          rw [hds]
          simp only [emaLoop, hne, Bool.false_eq_true, if_false, hlift, hsmEq,
            heldv, hsw2]
          simp [digit_ne_comma hcd]
      · -- junk argument after s-maxage=
        have hsplit : a.takeWhile Char.isDigit ++ a.dropWhile Char.isDigit = a :=
          List.takeWhile_append_dropWhile _ _
        have hDall : (a.takeWhile Char.isDigit).all Char.isDigit = true := by
          rw [List.all_eq_true]
          intro x hx
          exact List.mem_takeWhile_imp hx
        have hrne : a.dropWhile Char.isDigit ≠ [] := by
          intro h
          apply hdig
          have h2 := hsplit
          rw [h, List.append_nil] at h2
          rw [← h2]
          exact hDall
        have hrall2 : (a.dropWhile Char.isDigit).all isTchar = true := by
          rw [List.all_eq_true]
          intro x hx
          exact List.all_eq_true.mp haall x ((List.dropWhile_sublist _).subset hx)
        have hrh : ∀ c, (a.dropWhile Char.isDigit).head? = some c →
            c.isDigit = false ∧ c ≠ ',' := by
          intro c hc
          refine ⟨head_dropWhile_false a hc, ?_⟩
          exact tchar_ne_comma (List.all_eq_true.mp hrall2 c (mem_of_headq hc))
        have hds : dirStep ⟨smTok, some (.tok a)⟩ ma fs = none := by
          simp [dirStep, hnc, hdig]
        obtain ⟨c0, r0, hr0⟩ : ∃ c0 r0, a.dropWhile Char.isDigit = c0 :: r0 := by
          cases hrc : a.dropWhile Char.isDigit with
          | nil => exact absurd hrc hrne
          | cons c0 r0 => exact ⟨c0, r0, rfl⟩
        have hc0h : (a.dropWhile Char.isDigit).head? = some c0 := by rw [hr0]; rfl
        have hc0d := (hrh c0 hc0h).1
        have hc0c := (hrh c0 hc0h).2
        have hc0t : isTchar c0 = true :=
          List.all_eq_true.mp hrall2 c0 (mem_of_headq hc0h)
        by_cases hDlt : digitsVal (a.takeWhile Char.isDigit) < U64
        · have heldv : eatLeadingDuration (a ++ u) =
              (.zero, a.dropWhile Char.isDigit ++ u) := by
            have h3 := eld_mixed_small (u := u) hDall hDlt hrne hrh
            rw [← List.append_assoc, hsplit] at h3
            exact h3
          have hsw3 : stripWs (c0 :: (r0 ++ u)) = c0 :: (r0 ++ u) :=
            stripWs_not_ws (head_false_of_cons (tchar_not_ws hc0t))
          refine ⟨f, hbound, ?_⟩
          rw [hds]
          simp only [emaLoop, hne, Bool.false_eq_true, if_false, hlift, hsmEq,
            heldv, hr0, List.cons_append, hsw3]
          simp [hc0c]
        · have heldv : eatLeadingDuration (a ++ u) = (.zero, a ++ u) := by
            have h3 := eld_mixed_overflow (u := u) hDall hDlt hrne hrh
            rw [← List.append_assoc, hsplit] at h3
            exact h3
          have hDne : a.takeWhile Char.isDigit ≠ [] := by
            intro h
            rw [h] at hDlt
            exact hDlt (by unfold digitsVal U64; simp)
          obtain ⟨x, xs, rfl⟩ : ∃ x xs, a = x :: xs := by
            cases a with
            | nil => exact absurd rfl hane
            | cons x xs => exact ⟨x, xs, rfl⟩
          have hxdig : x.isDigit = true := by
            by_contra hx
            apply hDne
            rw [List.takeWhile_cons_of_neg (by simpa using hx)]
          have hsw2 : stripWs ((x :: xs) ++ u) = (x :: xs) ++ u :=
            stripWs_not_ws (head_false_of_cons (tchar_not_ws (digit_isTchar hxdig)))
          refine ⟨f, hbound, ?_⟩
          rw [hds]
          simp only [emaLoop, hne, Bool.false_eq_true, if_false, hlift, hsmEq,
            heldv, hsw2]
          simp [digit_ne_comma hxdig]
    · rw [if_neg hsm] at hsmEq
      by_cases hmt : tok = maTok ∧ fs = false
      · obtain ⟨rfl, rfl⟩ := hmt
        rw [if_pos rfl] at hmaEq
        by_cases hdig : a.all Char.isDigit = true
        · by_cases hlt : digitsVal a < U64
          · have heldv := eld_digits_ok hane hdig hlt hu
            have hds : dirStep ⟨maTok, some (.tok a)⟩ ma false =
                some (if 2 ^ 63 ≤ digitsVal a then .max
                      else .secs (Int.ofNat (digitsVal a)), false) := by
              simp [dirStep, hnc, hsm, hdig, hlt]
            refine ⟨f, hbound, ?_⟩
            rw [hds]
            simp only [emaLoop, hne, Bool.false_eq_true, if_false, hlift, hsmEq,
              hmaEq, heldv]
          · have heldv := eld_digits_overflow hane hdig hlt hu
            have hds : dirStep ⟨maTok, some (.tok a)⟩ ma false =
                some (.max, false) := by
              simp [dirStep, hnc, hsm, hdig, hlt]
            obtain ⟨c, cs, rfl⟩ : ∃ c cs, a = c :: cs := by
              cases a with
              | nil => exact absurd rfl hane
              | cons c cs => exact ⟨c, cs, rfl⟩
            have hcd : c.isDigit = true :=
              List.all_eq_true.mp hdig c (List.mem_cons_self c cs)
            have hcsn : commaSkip ((c :: cs) ++ u) = (c :: cs) ++ u := by
              apply commaSkip_not_comma
              simp only [List.cons_append, List.head?_cons]
              intro h
              exact digit_ne_comma hcd (by injection h)
            have hswn : stripWs ((c :: cs) ++ u) = (c :: cs) ++ u :=
              stripWs_not_ws (head_false_of_cons (tchar_not_ws (digit_isTchar hcd)))
            have hnca : consumeLit ncL (c :: cs) = none := by
              apply consumeLit_cons_ne
              intro h
              rw [← h] at hcd
              exact absurd hcd (by decide)
            obtain ⟨f2, hb2, heq2⟩ := @emaStepNoArg (c :: cs) u
              Duration.max false f (by simp) haall
              hu (by rw [List.length_append]; simp only [List.length_cons] at hlens ⊢; omega)
            rw [hnca] at heq2
            refine ⟨f2, hb2, ?_⟩
            rw [hds]
            simp only [emaLoop, hne, Bool.false_eq_true, if_false, hlift, hsmEq,
              hmaEq, heldv, hcsn, hswn]
            exact heq2
        · -- junk argument after max-age=
          have hsplit : a.takeWhile Char.isDigit ++ a.dropWhile Char.isDigit = a :=
            List.takeWhile_append_dropWhile _ _
          have hDall : (a.takeWhile Char.isDigit).all Char.isDigit = true := by
            rw [List.all_eq_true]
            intro x hx
            exact List.mem_takeWhile_imp hx
          have hrne : a.dropWhile Char.isDigit ≠ [] := by
            intro h
            apply hdig
            have h2 := hsplit
            rw [h, List.append_nil] at h2
            rw [← h2]
            exact hDall
          have hrall2 : (a.dropWhile Char.isDigit).all isTchar = true := by
            rw [List.all_eq_true]
            intro x hx
            exact List.all_eq_true.mp haall x ((List.dropWhile_sublist _).subset hx)
          have hrh : ∀ c, (a.dropWhile Char.isDigit).head? = some c →
              c.isDigit = false ∧ c ≠ ',' := by
            intro c hc
            refine ⟨head_dropWhile_false a hc, ?_⟩
            exact tchar_ne_comma (List.all_eq_true.mp hrall2 c (mem_of_headq hc))
          obtain ⟨c0, r0, hr0⟩ : ∃ c0 r0, a.dropWhile Char.isDigit = c0 :: r0 := by
            cases hrc : a.dropWhile Char.isDigit with
            | nil => exact absurd hrc hrne
            | cons c0 r0 => exact ⟨c0, r0, rfl⟩
          have hc0h : (a.dropWhile Char.isDigit).head? = some c0 := by rw [hr0]; rfl
          have hc0t : isTchar c0 = true :=
            List.all_eq_true.mp hrall2 c0 (mem_of_headq hc0h)
          have hrlen : (a.dropWhile Char.isDigit).length ≤ a.length := by
            conv_rhs => rw [← hsplit]
            rw [List.length_append]
            omega
          by_cases hDlt : digitsVal (a.takeWhile Char.isDigit) < U64
          · have heldv : eatLeadingDuration (a ++ u) =
                (.zero, a.dropWhile Char.isDigit ++ u) := by
              have h3 := eld_mixed_small (u := u) hDall hDlt hrne hrh
              rw [← List.append_assoc, hsplit] at h3
              exact h3
            have hcs2 : commaSkip (a.dropWhile Char.isDigit ++ u) =
                a.dropWhile Char.isDigit ++ u := by
              rw [hr0]
              apply commaSkip_not_comma
              simp only [List.cons_append, List.head?_cons]
              intro h
              exact (hrh c0 hc0h).2 (by injection h)
            have hsw2 : stripWs (a.dropWhile Char.isDigit ++ u) =
                a.dropWhile Char.isDigit ++ u := by
              rw [hr0]
              exact stripWs_not_ws (head_false_of_cons (tchar_not_ws hc0t))
            obtain ⟨f2, hb2, heq2⟩ := @emaStepNoArg
              (a.dropWhile Char.isDigit) u Duration.zero
              false f hrne hrall2 hu
              (by rw [List.length_append]; omega)
            have hds : dirStep ⟨maTok, some (.tok a)⟩ ma false =
                (match consumeLit ncL (a.dropWhile Char.isDigit) with
                 | some rest2 => if rest2.isEmpty then none
                                 else some (Duration.zero, false)
                 | none => some (Duration.zero, false)) := by
              simp [dirStep, hnc, hsm, hdig, hDlt]
            refine ⟨f2, hb2, ?_⟩
            rw [hds]
            simp only [emaLoop, hne, Bool.false_eq_true, if_false, hlift,
              hsmEq, hmaEq, heldv, hcs2, hsw2]
            rw [heq2]
            cases hnc2 : consumeLit ncL (a.dropWhile Char.isDigit) with
            | none => rfl
            | some rest2 =>
              by_cases hre2 : rest2.isEmpty
              · simp [hre2]
              · simp [hre2]
          · have heldv : eatLeadingDuration (a ++ u) = (.zero, a ++ u) := by
              have h3 := eld_mixed_overflow (u := u) hDall hDlt hrne hrh
              rw [← List.append_assoc, hsplit] at h3
              exact h3
            have hDne : a.takeWhile Char.isDigit ≠ [] := by
              intro h
              rw [h] at hDlt
              exact hDlt (by unfold digitsVal U64; simp)
            obtain ⟨x, xs, rfl⟩ : ∃ x xs, a = x :: xs := by
              cases a with
              | nil => exact absurd rfl hane
              | cons x xs => exact ⟨x, xs, rfl⟩
            have hxdig : x.isDigit = true := by
              by_contra hx
              apply hDne
              rw [List.takeWhile_cons_of_neg (by simpa using hx)]
            have hcsn : commaSkip ((x :: xs) ++ u) = (x :: xs) ++ u := by
              apply commaSkip_not_comma
              simp only [List.cons_append, List.head?_cons]
              intro h
              exact digit_ne_comma hxdig (by injection h)
            have hswn : stripWs ((x :: xs) ++ u) = (x :: xs) ++ u :=
              stripWs_not_ws (head_false_of_cons (tchar_not_ws (digit_isTchar hxdig)))
            have hnca : consumeLit ncL (x :: xs) = none := by
              apply consumeLit_cons_ne
              intro h
              rw [← h] at hxdig
              exact absurd hxdig (by decide)
            have hds : dirStep ⟨maTok, some (.tok (x :: xs))⟩ ma false =
                some (Duration.zero, false) := by
              simp [dirStep, hnc, hsm, hdig, hDlt]
            obtain ⟨f2, hb2, heq2⟩ := @emaStepNoArg (x :: xs) u
              Duration.zero false f (by simp) haall
              hu (by rw [List.length_append]; simp only [List.length_cons] at hlens ⊢; omega)
            rw [hnca] at heq2
            refine ⟨f2, hb2, ?_⟩
            rw [hds]
            simp only [emaLoop, hne, Bool.false_eq_true, if_false, hlift,
              hsmEq, hmaEq, heldv, hcsn, hswn]
            exact heq2
      · -- generic directive with a token argument
        have hds : dirStep ⟨tok, some (.tok a)⟩ ma fs = some (ma, fs) := by
          have h4 : ¬ (tok = maTok ∧ (some (DirArg.tok a)).isSome = true ∧ fs = false) := by
            intro ⟨h5, _, h6⟩
            exact hmt ⟨h5, h6⟩
          simp only [dirStep, hnc]
          rw [if_neg (by simp [hsm]), if_neg (by simpa using h4)]
        have hres : eatToken (tok ++ '=' :: (a ++ u)) = (true, '=' :: (a ++ u)) :=
          eatToken_app htokne htok hBt
        have hda : eatDirectiveArgument (a ++ u) = u :=
          eatDirArg_token hane haall hsepT
        refine ⟨f, hbound, ?_⟩
        rw [hds]
        cases fs with
        | true =>
          simp only [emaLoop, hne, Bool.false_eq_true, if_false, hlift, hsmEq,
            if_true, hres, consume_eq_cons, hda]
        | false =>
          have hmane : ¬ (tok = maTok) := fun h => hmt ⟨h, rfl⟩
          rw [if_neg hmane] at hmaEq
          simp only [emaLoop, hne, Bool.false_eq_true, if_false, hlift, hsmEq,
            hmaEq, hres, if_true, consume_eq_cons, hda]

theorem consume_single_cons {x : Char} {X : List Char} :
    consumeLit [x] (x :: X) = some X := by
  simp [consumeLit]

theorem wfDir_parts {tok : List Char} {arg : Option DirArg}
    (h : wfDir ⟨tok, arg⟩ = true) :
    tok ≠ [] ∧ tok.all isTchar = true ∧ wfArg arg = true := by
  unfold wfDir at h
  simp only [Bool.and_eq_true, Bool.not_eq_true'] at h
  refine ⟨?_, h.1.2, h.2⟩
  intro he
  rw [he] at h
  simp at h

theorem emaStep {d : Dir} {u : List Char} {ma : Duration} {fs : Bool}
    {fuel : Nat} (hwf : wfDir d = true) (hu : SepU u)
    (hfuel : (render d ++ u).length < fuel) :
    ∃ f', (stripWs (commaSkip u)).length < f' ∧
      emaLoop fuel (render d ++ u) ma fs =
        (match dirStep d ma fs with
         | none => Duration.zero
         | some (ma', fs') => emaLoop f' (stripWs (commaSkip u)) ma' fs') := by
  obtain ⟨tok, arg⟩ := d
  obtain ⟨htokne, htok, harg⟩ := wfDir_parts hwf
  cases arg with
  | none =>
    have hrd : render ⟨tok, none⟩ = tok := by simp [render, renderArg]
    rw [hrd] at hfuel ⊢
    obtain ⟨f', hb, heq⟩ := @emaStepNoArg tok u ma fs fuel htokne htok hu hfuel
    refine ⟨f', hb, ?_⟩
    rw [heq]
    cases hnc : consumeLit ncL tok with
    | some rest =>
      have hds : dirStep ⟨tok, none⟩ ma fs =
          (if rest.isEmpty then none else some (ma, fs)) := by
        simp [dirStep, hnc]
      rw [hds]
      by_cases hre : rest.isEmpty <;> simp [hre]
    | none =>
      have hds : dirStep ⟨tok, none⟩ ma fs = some (ma, fs) := by
        simp [dirStep, hnc]
      rw [hds]
  | some arg2 =>
    cases arg2 with
    | tok a =>
      have hane : a ≠ [] := by
        intro he
        rw [he] at harg
        simp [wfArg] at harg
      have haall : a.all isTchar = true := by
        simp only [wfArg, Bool.and_eq_true] at harg
        exact harg.2
      have hrd : render ⟨tok, some (.tok a)⟩ ++ u = tok ++ '=' :: (a ++ u) := by
        simp [render, renderArg]
      rw [hrd] at hfuel ⊢
      exact emaStepTokArg htokne htok hane haall hu hfuel
    | quoted i =>
      have hi : i.all (fun c => !(c = '\"' : Bool)) = true := harg
      have hrd : render ⟨tok, some (.quoted i)⟩ ++ u =
          tok ++ '=' :: '\"' :: (i ++ '\"' :: u) := by
        simp [render, renderArg]
      rw [hrd] at hfuel ⊢
      have hz := @emaStepQuoted tok i u ma fs fuel htokne htok hi hu hfuel
      refine ⟨fuel, ?_, ?_⟩
      · have l1 := stripWs_len (commaSkip u)
        have l2 := commaSkip_len u
        simp only [List.length_append, List.length_cons] at hfuel
        omega
      · rw [hz]
        have hds : dirStep ⟨tok, some (.quoted i)⟩ ma fs = none := by
          simp [dirStep]
        rw [hds]

theorem joinDirs_cons (d : Dir) (ds : List Dir) :
    joinDirs (d :: ds) =
      render d ++ (if ds.isEmpty then [] else ',' :: joinDirs ds) := by
  cases ds with
  | nil => simp [joinDirs]
  | cons d2 ds2 => simp [joinDirs]

theorem stripWs_joinDirs {d2 : Dir} {ds2 : List Dir} (hwf : wfDir d2 = true) :
    stripWs (joinDirs (d2 :: ds2)) = joinDirs (d2 :: ds2) := by
  obtain ⟨tok, arg⟩ := d2
  obtain ⟨htokne, htok, _⟩ := wfDir_parts hwf
  obtain ⟨t, ts, htk⟩ : ∃ t ts, tok = t :: ts := by
    cases tok with
    | nil => exact absurd rfl htokne
    | cons t ts => exact ⟨t, ts, rfl⟩
  have htc : isTchar t = true := by
    rw [htk] at htok
    exact List.all_eq_true.mp htok t (List.mem_cons_self t ts)
  rw [joinDirs_cons]
  show stripWs ((Dir.mk tok arg).tok ++ renderArg (Dir.mk tok arg).arg ++ _) = _
  simp only [htk, List.cons_append]
  exact stripWs_not_ws (head_false_of_cons (tchar_not_ws htc))

theorem emaLoop_runDirs : ∀ (ds : List Dir), (∀ d ∈ ds, wfDir d = true) →
    ∀ (ma : Duration) (fs : Bool) (fuel : Nat), (joinDirs ds).length < fuel →
    emaLoop fuel (joinDirs ds) ma fs = runDirs ds ma fs := by
  intro ds
  induction ds with
  | nil =>
    intro _ ma fs fuel hf
    obtain ⟨f, rfl⟩ : ∃ f, fuel = f + 1 := ⟨fuel - 1, by omega⟩
    simp [joinDirs, emaLoop, runDirs]
  | cons d ds ih =>
    intro hwf ma fs fuel hf
    have hwfd : wfDir d = true := hwf d (List.mem_cons_self d ds)
    have hwfds : ∀ d' ∈ ds, wfDir d' = true :=
      fun d' hd' => hwf d' (List.mem_cons_of_mem _ hd')
    cases ds with
    | nil =>
      have hj : joinDirs [d] = render d ++ [] := by simp [joinDirs]
      rw [hj] at hf ⊢
      obtain ⟨f', hb, heq⟩ := @emaStep d [] ma fs fuel hwfd (Or.inl rfl) hf
      rw [heq]
      have hcs : stripWs (commaSkip ([] : List Char)) = [] := rfl
      rw [hcs] at hb ⊢
      obtain ⟨g, rfl⟩ : ∃ g, f' = g + 1 := ⟨f' - 1, by omega⟩
      cases hds : dirStep d ma fs with
      | none => simp [runDirs, hds]
      | some p =>
        obtain ⟨ma', fs'⟩ := p
        simp [runDirs, hds, emaLoop]
    | cons d2 ds2 =>
      have hj : joinDirs (d :: d2 :: ds2) =
          render d ++ ',' :: joinDirs (d2 :: ds2) := by
        rw [joinDirs_cons]
        simp
      rw [hj] at hf ⊢
      obtain ⟨f', hb, heq⟩ := @emaStep d (',' :: joinDirs (d2 :: ds2)) ma fs fuel
        hwfd (Or.inr ⟨joinDirs (d2 :: ds2), rfl⟩) hf
      rw [heq]
      have hcs : stripWs (commaSkip (',' :: joinDirs (d2 :: ds2))) =
          joinDirs (d2 :: ds2) := by
        unfold commaSkip
        rw [consume_single_cons]
        exact stripWs_joinDirs (hwfds d2 (List.mem_cons_self d2 ds2))
      rw [hcs] at hb ⊢
      cases hds : dirStep d ma fs with
      | none => simp [runDirs, hds]
      | some p =>
        obtain ⟨ma', fs'⟩ := p
        have := ih hwfds ma' fs' f' hb
        simp only [runDirs, hds]
        exact this

/-- `effectiveMaxAge` of a rendered well-formed directive list equals the
directive-list semantics `runDirs`. -/
theorem effectiveMaxAge_runDirs (ds : List Dir)
    (hwf : ∀ d ∈ ds, wfDir d = true) :
    effectiveMaxAge (joinDirs ds) = runDirs ds .zero false := by
  unfold effectiveMaxAge
  exact emaLoop_runDirs ds hwf .zero false _ (by omega)

/-! ### Directive-list semantics facts -/

theorem runDirs_noCache : ∀ (ds : List Dir) (ma : Duration) (fs : Bool),
    (⟨ncL, none⟩ : Dir) ∈ ds → runDirs ds ma fs = Duration.zero := by
  intro ds
  induction ds with
  | nil => intro ma fs h; exact absurd h (List.not_mem_nil _)
  | cons d ds ih =>
    intro ma fs h
    rcases List.mem_cons.mp h with rfl | hmem
    · have hc : consumeLit ncL ncL = some [] := by decide
      have hds : dirStep ⟨ncL, none⟩ ma fs = none := by
        simp [dirStep, hc]
      simp [runDirs, hds]
    · cases hds : dirStep d ma fs with
      | none => simp [runDirs, hds]
      | some p =>
        obtain ⟨ma', fs'⟩ := p
        simp only [runDirs, hds]
        exact ih ma' fs' hmem

theorem dirStep_fs_true {d : Dir} {ma ma' : Duration} {fs' : Bool}
    (h : dirStep d ma true = some (ma', fs')) : fs' = true := by
  obtain ⟨tok, arg⟩ := d
  cases arg with
  | none =>
    simp only [dirStep] at h
    cases hnc : consumeLit ncL tok with
    | some rest =>
      rw [hnc] at h
      by_cases hre : rest.isEmpty
      · simp [hre] at h
      · simp only [hre, Bool.false_eq_true, if_false, Option.some.injEq,
          Prod.mk.injEq] at h
        exact h.2.symm
    | none =>
      rw [hnc] at h
      simp at h
      exact h.2
  | some arg2 =>
    cases arg2 with
    | quoted i => simp [dirStep] at h
    | tok a =>
      simp only [dirStep] at h
      cases hnc : consumeLit ncL tok with
      | some rest =>
        rw [hnc] at h
        by_cases hre : rest.isEmpty
        · simp [hre] at h
        · simp only [hre, Bool.false_eq_true, if_false, Option.some.injEq,
            Prod.mk.injEq] at h
          exact h.2.symm
      | none =>
        rw [hnc] at h
        by_cases hsm : tok = smTok
        · simp only [hsm] at h
          simp at h
          exact h.2.2
        · simp only [hsm] at h
          simp at h
          exact h.2

theorem dirStep_maxage_skip (m : List Char) (ma : Duration) :
    dirStep ⟨maTok, some (.tok m)⟩ ma true = some (ma, true) := by
  have hnc : consumeLit ncL maTok = none := by decide
  have hms : ¬ (maTok = smTok) := by decide
  simp [dirStep, hnc, hms]

theorem runDirs_skip_maxage (mid suf : List Dir) (m : List Char) :
    ∀ ma, runDirs (mid ++ ⟨maTok, some (.tok m)⟩ :: suf) ma true =
      runDirs (mid ++ suf) ma true := by
  induction mid with
  | nil =>
    intro ma
    simp only [List.nil_append, runDirs, dirStep_maxage_skip]
  | cons d mid ih =>
    intro ma
    simp only [List.cons_append, runDirs]
    cases hds : dirStep d ma true with
    | none => rfl
    | some p =>
      obtain ⟨ma', fs'⟩ := p
      have hfs : fs' = true := dirStep_fs_true hds
      subst hfs
      exact ih ma'

theorem runDirs_append_congr (pre : List Dir) (X Y : List Dir)
    (h : ∀ ma fs, runDirs X ma fs = runDirs Y ma fs) :
    ∀ ma fs, runDirs (pre ++ X) ma fs = runDirs (pre ++ Y) ma fs := by
  induction pre with
  | nil => exact h
  | cons d pre ih =>
    intro ma fs
    simp only [List.cons_append, runDirs]
    cases hds : dirStep d ma fs with
    | none => rfl
    | some p =>
      obtain ⟨ma', fs'⟩ := p
      exact ih ma' fs'

theorem all_digit_tchar {l : List Char} (h : l.all Char.isDigit = true) :
    l.all isTchar = true := by
  rw [List.all_eq_true] at h ⊢
  intro x hx
  exact digit_isTchar (h x hx)

/-! ### Range-parser invariant -/

theorem parseRangesLoop_inv : ∀ (fuel : Nat) (s : List Char)
    (acc : List RawByteRange), (∀ r ∈ acc, rbInv r) →
    ∀ r ∈ parseRangesLoop fuel s acc, rbInv r := by
  intro fuel
  induction fuel with
  | zero =>
    intro s acc hacc r hr
    exact hacc r hr
  | succ fuel ih =>
    intro s acc hacc r hr
    simp only [parseRangesLoop] at hr
    by_cases hse : s.isEmpty
    · rw [if_pos hse] at hr
      exact hacc r hr
    · rw [if_neg hse] at hr
      cases hc1 : consumeLit ['-'] (readAndRemoveLeadingDigits s).2 with
      | none =>
        rw [hc1] at hr
        exact absurd hr (List.not_mem_nil r)
      | some s2 =>
        rw [hc1] at hr
        cases hp2 : (readAndRemoveLeadingDigits s2).1 with
        | none =>
          -- suffix reinterpretation: first becomes the sentinel
          simp only [hp2] at hr
          rw [if_neg (by simp)] at hr
          by_cases hemp : (readAndRemoveLeadingDigits s2).2.isEmpty
          · rw [if_pos hemp] at hr
            rcases List.mem_append.mp hr with h | h
            · exact hacc r h
            · rcases List.mem_singleton.mp h with rfl
              exact Or.inl rfl
          · rw [if_neg hemp] at hr
            cases hc2 : consumeLit [','] (readAndRemoveLeadingDigits s2).2 with
            | none =>
              rw [hc2] at hr
              exact absurd hr (List.not_mem_nil r)
            | some s4 =>
              rw [hc2] at hr
              refine ih s4 _ ?_ r hr
              intro r2 hr2
              rcases List.mem_append.mp hr2 with h | h
              · exact hacc r2 h
              · rcases List.mem_singleton.mp h with rfl
                exact Or.inl rfl
        | some l =>
          simp only [hp2] at hr
          set first0 := (readAndRemoveLeadingDigits s).1.getD UMAX with hf0
          by_cases hg : first0 ≠ UMAX ∧ l < first0
          · rw [if_pos hg] at hr
            exact absurd hr (List.not_mem_nil r)
          · rw [if_neg hg] at hr
            have hinv : rbInv ⟨first0, l⟩ := by
              show first0 = UMAX ∨ first0 ≤ l
              rcases Decidable.em (first0 = UMAX) with h1 | h1
              · exact Or.inl h1
              · right
                by_contra h2
                exact hg ⟨h1, by omega⟩
            by_cases hemp : (readAndRemoveLeadingDigits s2).2.isEmpty
            · rw [if_pos hemp] at hr
              rcases List.mem_append.mp hr with h | h
              · exact hacc r h
              · rcases List.mem_singleton.mp h with rfl
                exact hinv
            · rw [if_neg hemp] at hr
              cases hc2 : consumeLit [','] (readAndRemoveLeadingDigits s2).2 with
              | none =>
                rw [hc2] at hr
                exact absurd hr (List.not_mem_nil r)
              | some s4 =>
                rw [hc2] at hr
                refine ih s4 _ ?_ r hr
                intro r2 hr2
                rcases List.mem_append.mp hr2 with h | h
                · exact hacc r2 h
                · rcases List.mem_singleton.mp h with rfl
                  exact hinv

/-! ### Covering-ranges concatenation -/

theorem covers_join : ∀ {rs : List (Nat × Nat)} {o n : Nat} (b : List Char),
    n = b.length → Covers o rs n →
    (rs.map (fun r => getBodySlice b r.1 r.2)).flatten = b.drop o := by
  intro rs
  induction rs with
  | nil =>
    intro o n b hn h
    cases h
    subst hn
    simp [List.drop_length]
  | cons r rs ih =>
    intro o n b hn h
    cases h with
    | @cons _ l _ _ hol hrest =>
      simp only [List.map_cons, List.flatten_cons]
      rw [ih b hn hrest]
      unfold getBodySlice
      have hdd : (b.drop o).drop (l - o + 1) = b.drop (l + 1) := by
        rw [List.drop_drop]
        congr 1
        omega
      calc (b.drop o).take (l - o + 1) ++ b.drop (l + 1)
          = (b.drop o).take (l - o + 1) ++ (b.drop o).drop (l - o + 1) := by
            rw [hdd]
        _ = b.drop o := List.take_append_drop _ _

/-! ### Reference backend facts -/

theorem cacheLookup_insert : ∀ (m : SimpleCache) (k : Nat) (e : SimpleEntry),
    cacheLookup (cacheInsert m k e) k = some e := by
  intro m
  induction m with
  | nil => intro k e; simp [cacheInsert, cacheLookup]
  | cons p m ih =>
    intro k e
    obtain ⟨k', e'⟩ := p
    by_cases h : k' = k
    · simp [cacheInsert, cacheLookup, h]
    · simp only [cacheInsert, if_neg h, cacheLookup]
      exact ih k e

theorem stepInsert_committed {m : SimpleCache} {c : InsCtx} (op : InsOp)
    (h : c.committed = true) : stepInsert m c op = none := by
  cases op with
  | headers h2 es => simp [stepInsert, h]
  | body chunk es => simp [stepInsert, h]

theorem runInsert_committed {m : SimpleCache} {c : InsCtx}
    (ops : List InsOp) (h : c.committed = true) :
    runInsert m c ops = (m, c) := by
  cases ops with
  | nil => rfl
  | cons op ops =>
    simp only [runInsert, stepInsert_committed op h]

theorem commitCount_committed : ∀ {m : SimpleCache} {c : InsCtx}
    (ops : List InsOp), c.committed = true → commitCount m c ops = 0 := by
  intro m c ops h
  cases ops with
  | nil => rfl
  | cons op ops =>
    simp only [commitCount, stepInsert_committed op h]

theorem stepInsert_stays_committed {m m' : SimpleCache} {c c' : InsCtx}
    {op : InsOp} (h : stepInsert m c op = some (m', c'))
    (hc : c.committed = true) : False := by
  rw [stepInsert_committed op hc] at h
  exact Option.noConfusion h

theorem commitCount_le_one : ∀ (ops : List InsOp) (m : SimpleCache) (c : InsCtx),
    commitCount m c ops ≤ 1 := by
  intro ops
  induction ops with
  | nil => intro m c; simp [commitCount]
  | cons op ops ih =>
    intro m c
    simp only [commitCount]
    cases hs : stepInsert m c op with
    | none => simp
    | some p =>
      obtain ⟨m', c'⟩ := p
      show (if (c'.committed && !c.committed) = true then 1 else 0) +
        commitCount m' c' ops ≤ 1
      by_cases hcc : c'.committed = true ∧ c.committed = false
      · have h0 : commitCount m' c' ops = 0 := commitCount_committed ops hcc.1
        simp [hcc.1, hcc.2, h0]
      · have hc0 : (if (c'.committed && !c.committed) = true then 1 else 0) = 0 := by
          by_cases h1 : c'.committed = true
          · by_cases h2 : c.committed = true
            · simp [h1, h2]
            · exact absurd ⟨h1, by simpa using h2⟩ hcc
          · simp [Bool.eq_false_iff.mpr h1]
        rw [hc0]
        simpa using ih m' c'

/-! ### Characterization of large numeric values in `eatLeadingDuration` -/

theorem eld_big_digits (s : List Char)
    (hne : s.takeWhile Char.isDigit ≠ [])
    (hge : 2 ^ 63 ≤ digitsVal (s.takeWhile Char.isDigit)) :
    (eatLeadingDuration s).1 =
      if s.dropWhile Char.isDigit = [] ∨
          (s.dropWhile Char.isDigit).head? = some ','
      then Duration.max else Duration.zero := by
  have hsplit : s.takeWhile Char.isDigit ++ s.dropWhile Char.isDigit = s :=
    List.takeWhile_append_dropWhile _ _
  have hDall : (s.takeWhile Char.isDigit).all Char.isDigit = true := by
    rw [List.all_eq_true]
    intro x hx
    exact List.mem_takeWhile_imp hx
  have hRh : ∀ c, (s.dropWhile Char.isDigit).head? = some c →
      c.isDigit = false := fun c hc => head_dropWhile_false s hc
  have hge' : 9223372036854775808 ≤ digitsVal (s.takeWhile Char.isDigit) := hge
  by_cases hlt : digitsVal (s.takeWhile Char.isDigit) < U64
  · have h1 : readAndRemoveLeadingDigits s =
        (some (digitsVal (s.takeWhile Char.isDigit)), s.dropWhile Char.isDigit) := by
      conv_lhs => rw [← hsplit]
      rw [rrld_digits_app hne hDall hRh, if_pos hlt]
    simp only [eatLeadingDuration, h1]
    cases hR : s.dropWhile Char.isDigit with
    | nil => simp [hge']
    | cons c cs =>
      have hcd : c.isDigit = false := hRh c (by rw [hR]; rfl)
      by_cases hcc : c = ','
      · subst hcc
        simp [hge', hcd]
      · simp [hge', hcd, hcc]
  · have h1 : readAndRemoveLeadingDigits s = (none, s) := by
      conv_lhs => rw [← hsplit]
      rw [rrld_digits_app hne hDall hRh, if_neg hlt, hsplit]
    obtain ⟨x, xs, rfl⟩ : ∃ x xs, s = x :: xs := by
      cases s with
      | nil => exact absurd (by rfl) hne
      | cons x xs => exact ⟨x, xs, rfl⟩
    have hxd : x.isDigit = true := by
      by_contra hx
      apply hne
      rw [List.takeWhile_cons_of_neg (by simpa using hx)]
    simp only [eatLeadingDuration, h1, hxd, if_true]
    cases hR : (x :: xs).dropWhile Char.isDigit with
    | nil => simp [hxd]
    | cons c2 cs2 =>
      have hc2d : c2.isDigit = false := hRh c2 (by rw [hR]; rfl)
      by_cases hcc : c2 = ','
      · subst hcc
        simp [hxd]
      · simp [hxd, hcc]

/-! ### Claims -/

/-- C1, counterexample: the claim says every Range header whose
first-byte-pos is the literal 18446744073709551615 (`UINT64_MAX`) is
rejected wholesale, but the `cache_header_utility.cc:134-162` revision of
`getRanges` accepts `bytes=18446744073709551615-5`: the parsed first value
equals the sentinel, so the pair is silently treated as a suffix range of
length 5 instead of being rejected. -/
theorem c1_sentinel_first_counterexample :
    getRanges ["bytes=18446744073709551615-5".data] =
      [⟨UMAX, 5⟩] ∧ ([⟨UMAX, 5⟩] : List RawByteRange) ≠ [] := by
  decide

/-- C1, amended: the sentinel rule holds in only one of the two cited
revisions. In the `cache_header_utility.cc:134-162` revision, the spec's
example `bytes=18446744073709551615-18446744073709551616` does return the
empty vector — but only because the overflowing last-byte-pos leaves
unconsumed digits; a literal first-byte-pos of 18446744073709551615
followed by a parseable last-byte-pos is not rejected there, it is
reinterpreted as a suffix range. The `src/unnamed/part_007` revision, by
contrast, implements the rule: after consuming the `-` it checks
`first == UINT64_MAX` and clears, so it rejects both inputs (the check
fires before the second number is ever read). -/
theorem c1_sentinel_first_amended :
    getRanges ["bytes=18446744073709551615-18446744073709551616".data] = [] ∧
    getRanges ["bytes=18446744073709551615-5".data] = [⟨UMAX, 5⟩] ∧
    getRangesP7 ["bytes=18446744073709551615-5".data] = [] ∧
    getRangesP7 ["bytes=18446744073709551615-18446744073709551616".data] =
      [] := by
  decide

/-- C2: the claim says `updateHeaders` replaces the entry's headers and
keeps the body; in the source `SimpleHttpCache::updateHeaders` is an
unimplemented stub (`TODO(toddmgreer) Support updating headers.
ASSERT(false);`), so on a cache holding an entry the call hits the
assertion and never produces a state with the new headers. -/
theorem c2_updateHeaders_stub :
    updateHeaders (cacheInsert [] 0 ⟨[("etag".data, "old".data)], "body".data⟩)
      0 [("etag".data, "new".data)] = none ∧
    ([("etag".data, "new".data)] : Headers) ≠ [("etag".data, "old".data)] := by
  constructor
  · rfl
  · decide

/-- C3: an insert context commits at most once, and calls arriving after
the commit leave the cache and the context unchanged: any `insertHeaders`
or `insertBody` on a committed context fails its `ASSERT(!committed_)`
(modelled as the terminal `none`), a run of operations from a committed
context changes nothing, and along any run the number of commits is at
most one. -/
theorem c3_insert_commit_once :
    (∀ (m : SimpleCache) (c : InsCtx) (op : InsOp), c.committed = true →
      stepInsert m c op = none) ∧
    (∀ (m : SimpleCache) (c : InsCtx) (ops : List InsOp), c.committed = true →
      runInsert m c ops = (m, c)) ∧
    (∀ (m : SimpleCache) (c : InsCtx) (ops : List InsOp),
      commitCount m c ops ≤ 1) :=
  ⟨fun _ _ op h => stepInsert_committed op h,
   fun _ _ ops h => runInsert_committed ops h,
   fun m c ops => commitCount_le_one ops m c⟩

/-- C3 witness at concrete inputs. -/
theorem c3_insert_commit_once_witness :
    stepInsert [] ⟨0, none, [], true⟩ (.headers [] true) = none ∧
    runInsert [] ⟨0, none, [], true⟩ [.body "x".data true] =
      ([], ⟨0, none, [], true⟩) ∧
    commitCount [] (freshCtx 0) [.headers [] false, .body "y".data true] ≤ 1 :=
  ⟨c3_insert_commit_once.1 [] ⟨0, none, [], true⟩ _ rfl,
   c3_insert_commit_once.2.1 [] ⟨0, none, [], true⟩ _ rfl,
   c3_insert_commit_once.2.2 [] (freshCtx 0) _⟩

/-- C4, counterexample: the claim says an overflowed digit run followed by
whitespace still yields the saturated maximum; in the code the only bytes
accepted after an unconsumed overflowing digit run are a comma or the end
of input, so `max-age=18446744073709551616 ` (trailing space) evaluates to
the zero duration, not `max`. -/
theorem c4_overflow_ws_counterexample :
    effectiveMaxAge "max-age=18446744073709551616 ".data = Duration.zero ∧
    (eatLeadingDuration "18446744073709551616 ".data).1 = Duration.zero ∧
    Duration.zero ≠ Duration.max := by
  decide

/-- C4, amended: in `eatLeadingDuration`, a leading digit run whose value
is at least `2^63` (covering both uint64 overflow and the
negative-as-int64 reinterpretation) produces the saturated maximum
duration exactly when the digit run is followed by a comma or the end of
input; any other following byte (including whitespace) makes the value
invalid and the result is the zero duration. -/
theorem c4_overflow_comma_or_end (s : List Char)
    (hne : s.takeWhile Char.isDigit ≠ [])
    (hge : 2 ^ 63 ≤ digitsVal (s.takeWhile Char.isDigit)) :
    (eatLeadingDuration s).1 =
      if s.dropWhile Char.isDigit = [] ∨
          (s.dropWhile Char.isDigit).head? = some ','
      then Duration.max else Duration.zero :=
  eld_big_digits s hne hge

/-- C4 witness: the amended claim applied to an overflowing run at the end
of input (saturates) and to one followed by a stray byte (zero). -/
theorem c4_overflow_comma_or_end_witness :
    (eatLeadingDuration "18446744073709551616".data).1 = Duration.max ∧
    (eatLeadingDuration "9223372036854775808z".data).1 = Duration.zero := by
  constructor
  · have h := c4_overflow_comma_or_end "18446744073709551616".data
      (by decide) (by decide)
    rw [h]
    decide
  · have h := c4_overflow_comma_or_end "9223372036854775808z".data
      (by decide) (by decide)
    rw [h]
    decide

/-- C5: for every Cache-Control value assembled from well-formed
cache-directives in which `no-cache` occurs as a complete directive token,
`effectiveMaxAge` returns the zero duration, regardless of the directives
before or after it (including `max-age` and `s-maxage`). -/
theorem c5_no_cache_zero (ds : List Dir) (hwf : ∀ d ∈ ds, wfDir d = true)
    (hmem : (⟨ncL, none⟩ : Dir) ∈ ds) :
    effectiveMaxAge (joinDirs ds) = Duration.zero := by
  rw [effectiveMaxAge_runDirs ds hwf]
  exact runDirs_noCache ds _ _ hmem

/-- C5 witness: `no-cache,max-age=3600` (and the rendered form is the
literal header text). -/
theorem c5_no_cache_zero_witness :
    joinDirs [⟨ncL, none⟩, ⟨maTok, some (.tok "3600".data)⟩] =
      "no-cache,max-age=3600".data ∧
    effectiveMaxAge "no-cache,max-age=3600".data = Duration.zero := by
  have h := c5_no_cache_zero
    [⟨ncL, none⟩, ⟨maTok, some (.tok "3600".data)⟩] (by decide) (by decide)
  revert h
  decide

/-- The loop's effect on an `s-maxage=<digits>` directive: if the digit
run parses without uint64 overflow the lifetime is set (saturating at
`2^63`) and the sticky flag becomes true; otherwise the scan returns zero. -/
theorem dirStep_smaxage (na : List Char) (ma : Duration) (fs : Bool) :
    dirStep ⟨smTok, some (.tok na)⟩ ma fs =
      if na.all Char.isDigit ∧ digitsVal na < U64 then
        some (if 2 ^ 63 ≤ digitsVal na then Duration.max
          else Duration.secs (Int.ofNat (digitsVal na)), true)
      else none := by
  have hnc : consumeLit ncL smTok = none := by decide
  simp [dirStep, hnc]

/-- A directive `token=digits` with a nonempty name of tchars and a
nonempty digit argument is well-formed. -/
theorem wfDir_digits (t a : List Char)
    (ht : (!t.isEmpty && t.all isTchar) = true) (ha : a ≠ [])
    (had : a.all Char.isDigit = true) :
    wfDir ⟨t, some (.tok a)⟩ = true := by
  have h1 : a.isEmpty = false := by
    cases a with
    | nil => exact absurd rfl ha
    | cons c cs => rfl
  simp only [wfDir, wfArg, h1, Bool.not_false, Bool.true_and,
    all_digit_tchar had, Bool.and_true]
  exact ht

/-- C6: once a well-formed `s-maxage=<digits>` directive (with a value
that parses without uint64 overflow) has been scanned, every later
`max-age=<digits>` directive is ignored: deleting it does not change
`effectiveMaxAge`, and on the two-directive header the result is the
`s-maxage` value (saturating at `2^63` seconds). -/
theorem c6_smaxage_overrides (pre mid suf : List Dir) (na m : List Char)
    (hpre : ∀ d ∈ pre, wfDir d = true) (hmid : ∀ d ∈ mid, wfDir d = true)
    (hsuf : ∀ d ∈ suf, wfDir d = true)
    (hna : na ≠ []) (hnad : na.all Char.isDigit = true)
    (hm : m ≠ []) (hmd : m.all Char.isDigit = true)
    (hlt : digitsVal na < U64) :
    effectiveMaxAge (joinDirs (pre ++ ⟨smTok, some (.tok na)⟩ ::
        (mid ++ ⟨maTok, some (.tok m)⟩ :: suf))) =
      effectiveMaxAge (joinDirs (pre ++ ⟨smTok, some (.tok na)⟩ ::
        (mid ++ suf))) ∧
    effectiveMaxAge (joinDirs [⟨smTok, some (.tok na)⟩,
        ⟨maTok, some (.tok m)⟩]) =
      (if 2 ^ 63 ≤ digitsVal na then Duration.max
        else Duration.secs (Int.ofNat (digitsVal na))) := by
  have hwfsm : wfDir ⟨smTok, some (.tok na)⟩ = true :=
    wfDir_digits smTok na (by decide) hna hnad
  have hwfma : wfDir ⟨maTok, some (.tok m)⟩ = true :=
    wfDir_digits maTok m (by decide) hm hmd
  have hcond : na.all Char.isDigit = true ∧ digitsVal na < U64 := ⟨hnad, hlt⟩
  constructor
  · have hwf1 : ∀ d ∈ (pre ++ ⟨smTok, some (.tok na)⟩ ::
        (mid ++ ⟨maTok, some (.tok m)⟩ :: suf)), wfDir d = true := by
      intro d hd
      simp only [List.mem_append, List.mem_cons] at hd
      rcases hd with h | h | h | h | h
      · exact hpre d h
      · subst h; exact hwfsm
      · exact hmid d h
      · subst h; exact hwfma
      · exact hsuf d h
    have hwf2 : ∀ d ∈ (pre ++ ⟨smTok, some (.tok na)⟩ :: (mid ++ suf)),
        wfDir d = true := by
      intro d hd
      simp only [List.mem_append, List.mem_cons] at hd
      rcases hd with h | h | h | h
      · exact hpre d h
      · subst h; exact hwfsm
      · exact hmid d h
      · exact hsuf d h
    rw [effectiveMaxAge_runDirs _ hwf1, effectiveMaxAge_runDirs _ hwf2]
    apply runDirs_append_congr
    intro ma fs
    simp only [runDirs, dirStep_smaxage, if_pos hcond]
    exact runDirs_skip_maxage mid suf m _
  · have hwf3 : ∀ d ∈ ([⟨smTok, some (.tok na)⟩,
        ⟨maTok, some (.tok m)⟩] : List Dir), wfDir d = true := by
      intro d hd
      rcases List.mem_cons.mp hd with h | hd2
      · subst h; exact hwfsm
      · rcases List.mem_cons.mp hd2 with h | h
        · subst h; exact hwfma
        · exact absurd h (List.not_mem_nil d)
    rw [effectiveMaxAge_runDirs _ hwf3]
    simp only [runDirs, dirStep_smaxage, if_pos hcond, dirStep_maxage_skip]

/-- C6 witness: `s-maxage=60,max-age=30` evaluates like `s-maxage=60`,
namely to 60 seconds. -/
theorem c6_smaxage_overrides_witness :
    effectiveMaxAge "s-maxage=60,max-age=30".data =
      effectiveMaxAge "s-maxage=60".data ∧
    effectiveMaxAge "s-maxage=60,max-age=30".data = Duration.secs 60 := by
  have h := c6_smaxage_overrides [] [] [] "60".data "30".data
    (by decide) (by decide) (by decide) (by decide) (by decide)
    (by decide) (by decide) (by decide)
  revert h
  decide

/-- C7: the backend round trip. Inserting an entry makes it retrievable
under its key: `lookup` returns exactly the inserted headers and body,
`getHeaders` delivers those headers with the body size, any consecutive
covering sequence of adjusted ranges reassembles the body byte for byte
via `getBody`, and a second insert under the same key replaces the entry. -/
theorem c7_insert_lookup_roundtrip (m : SimpleCache) (k : Nat) (h : Headers)
    (b : List Char) :
    cacheLookup (cacheInsert m k ⟨h, b⟩) k = some ⟨h, b⟩ ∧
    getHeadersResult (cacheInsert m k ⟨h, b⟩) k = some (h, b.length) ∧
    (∀ rs : List (Nat × Nat), Covers 0 rs b.length →
      (rs.map (fun r => getBodySlice b r.1 r.2)).flatten = b) ∧
    (∀ (h2 : Headers) (b2 : List Char),
      cacheLookup (cacheInsert (cacheInsert m k ⟨h, b⟩) k ⟨h2, b2⟩) k =
        some ⟨h2, b2⟩) := by
  refine ⟨cacheLookup_insert m k ⟨h, b⟩, ?_, ?_, ?_⟩
  · unfold getHeadersResult
    rw [cacheLookup_insert]
    rfl
  · intro rs hcov
    have hj := covers_join b rfl hcov
    simpa using hj
  · intro h2 b2
    exact cacheLookup_insert _ k ⟨h2, b2⟩

/-- C7 witness: a concrete insert/lookup round trip, and reassembly of the
body `abc` from the adjusted ranges `[0,0]` and `[1,2]`. -/
theorem c7_insert_lookup_roundtrip_witness :
    cacheLookup (cacheInsert [] 7
        ⟨[("content-length".data, "3".data)], "abc".data⟩) 7 =
      some ⟨[("content-length".data, "3".data)], "abc".data⟩ ∧
    ([(0, 0), (1, 2)].map
      (fun r => getBodySlice "abc".data r.1 r.2)).flatten = "abc".data := by
  have h := c7_insert_lookup_roundtrip [] 7
    [("content-length".data, "3".data)] "abc".data
  refine ⟨h.1, ?_⟩
  apply h.2.2.1 [(0, 0), (1, 2)]
  have h3 : ("abc".data).length = 3 := rfl
  rw [h3]
  exact Covers.cons (by omega) (Covers.cons (by omega) (Covers.nil 3))

/-- C8: every range that `getRanges` returns satisfies the invariant that
the first-byte-pos is the `UINT64_MAX` suffix sentinel or is at most the
last-byte-pos; out-of-order pairs never survive to the result. -/
theorem c8_range_invariant (hs : List (List Char)) (r : RawByteRange)
    (hr : r ∈ getRanges hs) : rbInv r := by
  cases hs with
  | nil =>
    have hz : getRanges [] = [] := rfl
    rw [hz] at hr
    exact absurd hr (List.not_mem_nil r)
  | cons v t =>
    cases t with
    | cons w t2 =>
      have hz : getRanges (v :: w :: t2) = [] := rfl
      rw [hz] at hr
      exact absurd hr (List.not_mem_nil r)
    | nil =>
      simp only [getRanges] at hr
      by_cases hl : v.length > 100
      · rw [if_pos hl] at hr
        exact absurd hr (List.not_mem_nil r)
      · rw [if_neg hl] at hr
        cases hb : consumeLit bytesEqL v with
        | none =>
          rw [hb] at hr
          exact absurd hr (List.not_mem_nil r)
        | some rest =>
          rw [hb] at hr
          exact parseRangesLoop_inv (rest.length + 1) rest []
            (fun x hx => absurd hx (List.not_mem_nil x)) r hr

/-- C8 witness: the invariant at the range parsed from `bytes=1-2`. -/
theorem c8_range_invariant_witness : rbInv ⟨1, 2⟩ :=
  c8_range_invariant ["bytes=1-2".data] ⟨1, 2⟩ (by decide)

/-- C9: `httpTime` behaviour. A missing header yields the null
`SystemTime` (the epoch); each of the three RFC 7231 formats — IMF-fixdate,
obsolete RFC 850, and ANSI C `asctime` — parses the documented example
`Sun, 06 Nov 1994 08:49:37 GMT` (in its respective spelling) to the same
timestamp 784111777; the formats are tried in the documented order, the
earlier formats rejecting the later spellings; and a string no format
parses in full yields the null sentinel. -/
theorem c9_httpTime_formats :
    httpTime none = 0 ∧
    httpTime (some "Sun, 06 Nov 1994 08:49:37 GMT".data) = 784111777 ∧
    httpTime (some "Sunday, 06-Nov-94 08:49:37 GMT".data) = 784111777 ∧
    httpTime (some "Sun Nov  6 08:49:37 1994".data) = 784111777 ∧
    httpTime (some "invalid-date".data) = 0 ∧
    httpTime (some "Sun, 06 Nov 1994 08:49:37 PST".data) = 0 ∧
    parseIMF "Sunday, 06-Nov-94 08:49:37 GMT".data = none ∧
    parseIMF "Sun Nov  6 08:49:37 1994".data = none ∧
    parseRfc850 "Sun Nov  6 08:49:37 1994".data = none := by
  decide
